import Mathlib

/-
Verification of the mail-headers core: a shallow embedding of the
component-construction and encoding logic (`Email`, `Domain`, `LocalPart`,
`MessageID`, the text partitioner) and of the typed header container
(`HeaderMap`), together with theorems settling the specification claims.

Strings are modelled as `List Char` (Rust `&str` iterated with `chars()`).
External collaborators (the grammar-predicate module of `mail_common`, the
`quoted_string` crate, the IDNA transform, the output writer and the
`total_order_multi_map` crate) are modelled from the spec where noted.
-/

/-- Target character-set mode of an output stream (src: `mail_common`
`MailType`, spec section 3): `Ascii`, `Mime8BitEnabled`, `Internationalized`. -/
inductive MailType where
  | ascii
  | mime8BitEnabled
  | internationalized
deriving DecidableEq, Repr

/-- `is_internationalized` is true only for `Internationalized` (spec section 3). -/
def MailType.isInternationalized : MailType → Bool
  | .internationalized => true
  | _ => false

/-- Modelled from the spec: the grammar predicate `is_ascii` of the external
grammar-predicate module (spec section 2, item 1): true iff the character is
in the ASCII range. -/
def isAsciiChar (c : Char) : Bool := decide (c.toNat ≤ 127)

/-- Modelled from the spec: the grammar predicate `is_atext` of the external
grammar-predicate module. RFC 5322 atext (ALPHA, DIGIT and the atext
specials), widened to every non-ASCII character under `Internationalized`
(spec section 2 item 1 and glossary). The numeric list holds the code points
of the atext special characters. -/
def isAtext (mt : MailType) (c : Char) : Bool :=
  decide ((65 ≤ c.toNat ∧ c.toNat ≤ 90) ∨ (97 ≤ c.toNat ∧ c.toNat ≤ 122) ∨
    (48 ≤ c.toNat ∧ c.toNat ≤ 57) ∨
    c.toNat ∈ ([33, 35, 36, 37, 38, 39, 42, 43, 45, 47, 61, 63, 94, 95, 96,
      123, 124, 125, 126] : List Nat) ∨
    (mt.isInternationalized = true ∧ 127 < c.toNat))

/-- Modelled from the spec: the grammar predicate `is_dtext` (RFC 5322 dtext:
code points 33-90 and 94-126, i.e. printable ASCII without `[`, `\`, `]`),
widened to non-ASCII under `Internationalized` (spec glossary). -/
def isDtext (mt : MailType) (c : Char) : Bool :=
  decide ((33 ≤ c.toNat ∧ c.toNat ≤ 90) ∨ (94 ≤ c.toNat ∧ c.toNat ≤ 126) ∨
    (mt.isInternationalized = true ∧ 127 < c.toNat))

/-- Modelled from the spec: the grammar predicate `is_ws`: space or tab. -/
def isWs (c : Char) : Bool := decide (c.toNat = 32 ∨ c.toNat = 9)

/-- Modelled from the spec: the grammar predicate `is_vchar`: visible ASCII
(code points 33-126), widened to non-ASCII under `Internationalized`. -/
def isVchar (mt : MailType) (c : Char) : Bool :=
  decide ((33 ≤ c.toNat ∧ c.toNat ≤ 126) ∨ (mt.isInternationalized = true ∧ 127 < c.toNat))

/-- Construction-time component errors (src: `error::ComponentError`). -/
inductive ComponentError where
  | invalidDomainName (got : List Char)
  | invalidEmail (got : List Char)
  | needAtLastOneVCHAR (got : List Char)
deriving DecidableEq, Repr

instance instDecEqExcept {e a : Type} [DecidableEq e] [DecidableEq a] :
    DecidableEq (Except e a)
  | .ok x, .ok y =>
    if h : x = y then isTrue (by rw [h]) else isFalse (by simp [h])
  | .ok _, .error _ => isFalse (by simp)
  | .error _, .ok _ => isFalse (by simp)
  | .error x, .error y =>
    if h : x = y then isTrue (by rw [h]) else isFalse (by simp [h])

/-- Tagged text item that is either known-ASCII or known-UTF-8
(src: `SimpleItem` in `items/simple_item.rs`). -/
inductive SimpleItem where
  | ascii (s : List Char)
  | utf8 (s : List Char)
deriving DecidableEq, Repr

/-- src `SimpleItem: From<Input>`: tag the text ASCII when every character is
ASCII, UTF-8 otherwise. -/
def simpleItemOfInput (s : List Char) : SimpleItem :=
  if s.all isAsciiChar then .ascii s else .utf8 s

/-- src `Domain`: wraps a `SimpleItem` (components/email.rs line 38). -/
structure Domain where
  item : SimpleItem
deriving DecidableEq, Repr

/-- src `Domain::check_domain`, domain-literal branch (components/email.rs
lines 173-178): scan every character of the input (brackets included),
update the all-ASCII flag, fail unless the character is dtext
(internationalized class) or whitespace. Returns the final all-ASCII flag. -/
def checkDomainLitLoop (domain : List Char) :
    List Char → Bool → Except ComponentError Bool
  | [], ascii => .ok ascii
  | c :: rest, ascii =>
    let ascii := if ascii then isAsciiChar c else ascii
    if !(isDtext .internationalized c || isWs c) then
      .error (.invalidDomainName domain)
    else
      checkDomainLitLoop domain rest ascii

/-- src `Domain::check_domain`, dot-atom-text branch (components/email.rs
lines 183-193): loop over the characters with the `ascii` and `dot_alowed`
flags; a dot is consumed only when `dot_alowed` holds, any other character
must be internationalized atext. Returns the final all-ASCII flag. -/
def checkDomainLoop (domain : List Char) :
    List Char → Bool → Bool → Except ComponentError Bool
  | [], ascii, _ => .ok ascii
  | c :: rest, ascii, dotAlowed =>
    let ascii := if ascii then isAsciiChar c else ascii
    if c == '.' && dotAlowed then
      checkDomainLoop domain rest ascii false
    else if !(isAtext .internationalized c) then
      .error (.invalidDomainName domain)
    else
      checkDomainLoop domain rest ascii true

/-- Rust `domain.starts_with("[") && domain.ends_with("]")`
(components/email.rs line 168). -/
def isBracketed (domain : List Char) : Bool :=
  domain.head? == some '[' && domain.getLast? == some ']'

/-- src `Domain::check_domain` (components/email.rs lines 166-200): dispatch
on the bracket form, then map the all-ASCII flag to the storage tag. -/
def checkDomain (domain : List Char) : Except ComponentError MailType :=
  match
    (if isBracketed domain then checkDomainLitLoop domain domain true
     else checkDomainLoop domain domain true false) with
  | .error e => .error e
  | .ok ascii => .ok (if ascii then .ascii else .internationalized)

/-- src `Domain: HeaderTryFrom` (components/email.rs lines 143-160): run
`check_domain`; tag the stored item `Ascii` for an `Ascii`/`Mime8BitEnabled`
result and `Utf8` for `Internationalized`. -/
def Domain.tryFrom (input : List Char) : Except ComponentError Domain :=
  match checkDomain input with
  | .error e => .error e
  | .ok .ascii => .ok ⟨.ascii input⟩
  | .ok .mime8BitEnabled => .ok ⟨.ascii input⟩
  | .ok .internationalized => .ok ⟨.utf8 input⟩

/-- src `LocalPart`: wraps the input text with no construction-time grammar
check (components/email.rs lines 95-103). -/
structure LocalPart where
  text : List Char
deriving DecidableEq, Repr

/-- src `Email` (components/email.rs lines 28-31). -/
structure Email where
  localPart : LocalPart
  domain : Domain
deriving DecidableEq, Repr

/-- Rust `shared.find("@")` followed by the two zero-copy sub-slices
before/after the first `@` (components/email.rs lines 48-54). -/
def findSplitAt : List Char → Option (List Char × List Char)
  | [] => none
  | c :: rest =>
    if c == '@' then some ([], rest)
    else
      match findSplitAt rest with
      | some (l, r) => some (c :: l, r)
      | none => none

/-- src `Email::new` (components/email.rs lines 41-59): locate the first `@`
(failing with `InvalidEmail`), build the `LocalPart` from the left slice
(infallible) and the `Domain` from the right slice (grammar-checked). -/
def Email.new (email : List Char) : Except ComponentError Email :=
  match findSplitAt email with
  | none => .error (.invalidEmail email)
  | some (left, right) =>
    match Domain.tryFrom right with
    | .error e => .error e
    | .ok d => .ok { localPart := ⟨left⟩, domain := d }

/-- Two consecutive dots occur somewhere in the string (claim C4's
"two consecutive dots", stated by direct recursion). -/
def HasDoubleDot : List Char → Prop
  | [] => False
  | [_] => False
  | a :: b :: rest => (a = '.' ∧ b = '.') ∨ HasDoubleDot (b :: rest)

instance instDecHasDoubleDot : ∀ l, Decidable (HasDoubleDot l)
  | [] => isFalse (fun h => h)
  | [_] => isFalse (fun h => h)
  | a :: b :: rest =>
    have : Decidable (HasDoubleDot (b :: rest)) := instDecHasDoubleDot (b :: rest)
    decidable_of_iff ((a = '.' ∧ b = '.') ∨ HasDoubleDot (b :: rest)) Iff.rfl

/-- The final all-ASCII flag computed by the dot-atom loop is the conjunction
of the incoming flag with `all isAsciiChar` over the remaining characters. -/
theorem checkDomainLoop_ascii_flag (d : List Char) :
    ∀ (rest : List Char) (a da b : Bool),
      checkDomainLoop d rest a da = .ok b → b = (a && rest.all isAsciiChar) := by
  intro rest
  induction rest with
  | nil =>
    intro a da b h
    simp only [checkDomainLoop] at h
    cases h
    simp
  | cons c cs ih =>
    intro a da b h
    simp only [checkDomainLoop] at h
    by_cases hdot : (c == '.' && da) = true
    · rw [if_pos hdot] at h
      have := ih _ _ _ h
      subst this
      cases a <;> simp [List.all_cons]
    · rw [if_neg hdot] at h
      by_cases hat : isAtext .internationalized c = true
      · rw [hat] at h
        simp only [Bool.not_true, if_neg] at h
        have := ih _ _ _ h
        subst this
        cases a <;> simp [List.all_cons]
      · simp only [Bool.not_eq_true] at hat
        rw [hat] at h
        simp at h

/-- Failure condition of the dot-atom loop, in the loop's own recursive
shape (helper for relating the loop to the claim's conditions). -/
def badDotAtom : List Char → Bool → Bool
  | [], _ => false
  | c :: rest, da =>
    if c == '.' && da then badDotAtom rest false
    else if !(isAtext .internationalized c) then true
    else badDotAtom rest true

/-- Bool step of the all-ASCII flag: updating then conjoining equals
conjoining with the whole. -/
theorem asciiStep (a x y : Bool) : ((if a = true then x else a) && y) = (a && (x && y)) := by
  cases a <;> cases x <;> simp

/-- The dot-atom loop fails (always with `InvalidDomainName` on the whole
input) exactly when `badDotAtom` holds; otherwise it returns the incoming
all-ASCII flag conjoined with `all isAsciiChar` of the rest. -/
theorem checkDomainLoop_eq (d : List Char) :
    ∀ (rest : List Char) (a da : Bool),
      checkDomainLoop d rest a da =
        if badDotAtom rest da then .error (.invalidDomainName d)
        else .ok (a && rest.all isAsciiChar) := by
  intro rest
  induction rest with
  | nil => intro a da; simp [checkDomainLoop, badDotAtom]
  | cons c cs ih =>
    intro a da
    simp only [checkDomainLoop, badDotAtom]
    by_cases h1 : (c == '.' && da) = true
    · simp only [h1, if_true, ih]
      congr 1
      cases a <;> cases hx : isAsciiChar c <;> simp [List.all_cons, hx]
    · simp only [h1, if_false, Bool.not_eq_true] at *
      simp only [h1, Bool.false_eq_true, if_false]
      by_cases h2 : isAtext .internationalized c = true
      · simp only [h2, Bool.not_true, Bool.false_eq_true, if_false, ih]
        congr 1
        cases a <;> cases hx : isAsciiChar c <;> simp [List.all_cons, hx]
      · simp only [Bool.not_eq_true] at h2
        simp [h2]

theorem hasDoubleDot_cons_dot (cs : List Char) :
    HasDoubleDot ('.' :: cs) ↔ cs.head? = some '.' ∨ HasDoubleDot cs := by
  cases cs with
  | nil => simp [HasDoubleDot]
  | cons b r => simp [HasDoubleDot]

theorem hasDoubleDot_cons_ne {c : Char} (hc : c ≠ '.') (cs : List Char) :
    HasDoubleDot (c :: cs) ↔ HasDoubleDot cs := by
  cases cs with
  | nil => simp [HasDoubleDot]
  | cons b r => simp [HasDoubleDot, hc]

/-- `badDotAtom` holds exactly when a dot sits where no accepted non-dot
character precedes it (start of the scan with `da` off, or right after a
dot) or some non-dot character is not internationalized atext. -/
theorem badDotAtom_iff :
    ∀ (l : List Char) (da : Bool),
      badDotAtom l da = true ↔
        (da = false ∧ l.head? = some '.') ∨ HasDoubleDot l ∨
          ∃ c ∈ l, c ≠ '.' ∧ isAtext .internationalized c = false := by
  intro l
  induction l with
  | nil => intro da; simp [badDotAtom, HasDoubleDot]
  | cons c cs ih =>
    intro da
    by_cases hc : c = '.'
    · subst hc
      cases da with
      | true =>
        have hstep : badDotAtom ('.' :: cs) true = badDotAtom cs false := by
          simp [badDotAtom]
        rw [hstep, ih, hasDoubleDot_cons_dot]
        constructor
        · rintro (⟨-, hh⟩ | h | ⟨x, hx, hne, hf⟩)
          · exact Or.inr (Or.inl (Or.inl hh))
          · exact Or.inr (Or.inl (Or.inr h))
          · exact Or.inr (Or.inr ⟨x, List.mem_cons_of_mem _ hx, hne, hf⟩)
        · rintro (⟨h1, -⟩ | (h1 | h1) | ⟨x, hx, hne, hf⟩)
          · exact absurd h1 (by simp)
          · exact Or.inl ⟨rfl, h1⟩
          · exact Or.inr (Or.inl h1)
          · rcases List.mem_cons.mp hx with rfl | hx
            · exact absurd rfl hne
            · exact Or.inr (Or.inr ⟨x, hx, hne, hf⟩)
      | false =>
        have hstep : badDotAtom ('.' :: cs) false = true := rfl
        rw [hstep]
        exact ⟨fun _ => Or.inl ⟨rfl, rfl⟩, fun _ => rfl⟩
    · have hbeq : (c == '.') = false := by simp [hc]
      by_cases hat : isAtext .internationalized c = true
      · have hstep : badDotAtom (c :: cs) da = badDotAtom cs true := by
          simp [badDotAtom, hbeq, hat]
        rw [hstep, ih, hasDoubleDot_cons_ne hc]
        constructor
        · rintro (⟨h1, -⟩ | h | ⟨x, hx, hne, hf⟩)
          · exact absurd h1 (by simp)
          · exact Or.inr (Or.inl h)
          · exact Or.inr (Or.inr ⟨x, List.mem_cons_of_mem _ hx, hne, hf⟩)
        · rintro (⟨-, h1⟩ | h | ⟨x, hx, hne, hf⟩)
          · rw [List.head?_cons, Option.some.injEq] at h1
            exact absurd h1 hc
          · exact Or.inr (Or.inl h)
          · rcases List.mem_cons.mp hx with rfl | hx
            · exact absurd hat (by simp [hf])
            · exact Or.inr (Or.inr ⟨x, hx, hne, hf⟩)
      · simp only [Bool.not_eq_true] at hat
        have hstep : badDotAtom (c :: cs) da = true := by
          simp [badDotAtom, hbeq, hat]
        rw [hstep]
        exact ⟨fun _ => Or.inr (Or.inr ⟨c, List.mem_cons_self _ _, hc, hat⟩),
          fun _ => rfl⟩

/-- C4 (amended): for every non-bracketed input string, Domain construction
fails with `InvalidDomainName` exactly when the string has a leading dot,
two consecutive dots, or a non-dot character that is not internationalized
atext; otherwise it succeeds, tagged ASCII iff every character is ASCII.
(The claim's additional "trailing dot" failure case does not hold on the
code: the scan accepts a dot whenever the previous character was accepted
and not itself a consumed dot, so a final dot is accepted.) -/
theorem domain_tryFrom_nonbracketed_characterization (s : List Char)
    (h : isBracketed s = false) :
    Domain.tryFrom s =
      if s.head? = some '.' ∨ HasDoubleDot s ∨
          ∃ c ∈ s, c ≠ '.' ∧ isAtext .internationalized c = false then
        .error (.invalidDomainName s)
      else .ok ⟨if s.all isAsciiChar then .ascii s else .utf8 s⟩ := by
  have hchk : checkDomain s =
      if badDotAtom s false then .error (.invalidDomainName s)
      else .ok (if s.all isAsciiChar then .ascii else .internationalized) := by
    unfold checkDomain
    rw [if_neg (by simp [h]), checkDomainLoop_eq]
    by_cases hb : badDotAtom s false = true
    · rw [if_pos hb, if_pos hb]
    · rw [if_neg hb, if_neg hb]
      simp only [Bool.true_and]
  have hcond : (badDotAtom s false = true) ↔
      (s.head? = some '.' ∨ HasDoubleDot s ∨
        ∃ c ∈ s, c ≠ '.' ∧ isAtext .internationalized c = false) := by
    rw [badDotAtom_iff]
    constructor
    · rintro (⟨-, h1⟩ | h1 | h1)
      · exact Or.inl h1
      · exact Or.inr (Or.inl h1)
      · exact Or.inr (Or.inr h1)
    · rintro (h1 | h1 | h1)
      · exact Or.inl ⟨rfl, h1⟩
      · exact Or.inr (Or.inl h1)
      · exact Or.inr (Or.inr h1)
  unfold Domain.tryFrom
  rw [hchk]
  by_cases hb : badDotAtom s false = true
  · rw [if_pos hb, if_pos (hcond.mp hb)]
  · rw [if_neg hb, if_neg (fun hx => hb (hcond.mpr hx))]
    by_cases ha : s.all isAsciiChar = true
    · rw [if_pos ha, if_pos ha]
    · rw [if_neg ha, if_neg ha]

/-- C4 (counterexample): the input `"a."` is not bracketed and ends with a
dot, yet Domain construction succeeds (with an ASCII tag) instead of
failing with `InvalidDomainName` as the claim states. -/
theorem domain_trailing_dot_accepted :
    isBracketed ['a', '.'] = false ∧ ['a', '.'].getLast? = some '.' ∧
      Domain.tryFrom ['a', '.'] = .ok ⟨.ascii ['a', '.']⟩ := by
  refine ⟨by decide, by decide, ?_⟩
  decide

/-- C4 (witness): the amended characterization applied to the concrete
leading-dot input `".a"`, whose construction fails. -/
theorem domain_tryFrom_nonbracketed_witness :
    isBracketed ['.', 'a'] = false ∧
      Domain.tryFrom ['.', 'a'] = .error (.invalidDomainName ['.', 'a']) :=
  ⟨by decide,
    (domain_tryFrom_nonbracketed_characterization ['.', 'a'] (by decide)).trans
      (by decide)⟩

theorem findSplitAt_append (t r : List Char) (h : '@' ∉ t) :
    findSplitAt (t ++ '@' :: r) = some (t, r) := by
  induction t with
  | nil => simp [findSplitAt]
  | cons c cs ih =>
    have hc : c ≠ '@' := fun hx => h (hx ▸ List.mem_cons_self _ _)
    have hcs : '@' ∉ cs := fun hx => h (List.mem_cons_of_mem _ hx)
    simp only [List.cons_append, findSplitAt, beq_iff_eq, if_neg hc]
    have hr : findSplitAt (List.append cs ('@' :: r)) = some (cs, r) := ih hcs
    rw [hr]

/-- C10: Domain construction from the empty string succeeds with an
ASCII-tagged empty domain, and Email construction from any string that ends
with its only `@` (local part before it, empty domain after it) succeeds
rather than failing with `InvalidDomainName`. -/
theorem empty_domain_accepted (t : List Char) (h : '@' ∉ t) :
    Domain.tryFrom [] = .ok ⟨.ascii []⟩ ∧
      Email.new (t ++ ['@']) = .ok { localPart := ⟨t⟩, domain := ⟨.ascii []⟩ } := by
  refine ⟨rfl, ?_⟩
  unfold Email.new
  rw [show (t ++ ['@']) = t ++ '@' :: [] from rfl, findSplitAt_append t [] h]
  rfl

/-- C10 (witness): the concrete input `"a@"`. -/
theorem empty_domain_accepted_witness :
    ('@' ∉ ['a']) ∧
      Email.new ['a', '@'] = .ok { localPart := ⟨['a']⟩, domain := ⟨.ascii []⟩ } :=
  ⟨by decide, (empty_domain_accepted ['a'] (by decide)).2⟩

/-- src `Partition` (components/utils/text_partition.rs lines 8-12): a
maximal whitespace run or visible-character run of the input. -/
inductive Partition where
  | space (s : List Char)
  | vchar (s : List Char)
deriving DecidableEq, Repr

/-- src local enum `Type` of the partitioner (text_partition.rs line 15). -/
inductive PType where
  | space
  | vchar
deriving DecidableEq, Repr

def PType.isVcharB : PType → Bool
  | .vchar => true
  | .space => false

/-- src final push of `partition` (text_partition.rs lines 53-56): wrap the
final run according to the current type. -/
def mkPartition : PType → List Char → Partition
  | .space, s => .space s
  | .vchar, s => .vchar s

/-- src `partition` main loop (text_partition.rs lines 31-50): iterate over
`char_indices` with the flushed partitions, the start index of the current
run, and the current run type; flush the run on a class change; fail with
`NeedAtLastOneVCHAR` on a character that is neither visible nor
whitespace/CR/LF. After the loop the final run `text[start..]` is pushed. -/
def partitionLoop (text : List Char) :
    List (Nat × Char) → List Partition → Nat → PType →
      Except ComponentError (List Partition)
  | [], parts, start, cur => .ok (parts ++ [mkPartition cur (text.drop start)])
  | (idx, c) :: rest, parts, start, cur =>
    if isVchar .internationalized c then
      match cur with
      | .space =>
        partitionLoop text rest
          (parts ++ [Partition.space ((text.take idx).drop start)]) idx .vchar
      | .vchar => partitionLoop text rest parts start cur
    else if isWs c || c == '\r' || c == '\n' then
      match cur with
      | .vchar =>
        partitionLoop text rest
          (parts ++ [Partition.vchar ((text.take idx).drop start)]) idx .space
      | .space => partitionLoop text rest parts start cur
    else .error (.needAtLastOneVCHAR text)

/-- src `partition` (text_partition.rs lines 17-59): the empty string gives
an empty partition list; otherwise run the loop starting with the class of
the first character. -/
def partition (text : List Char) : Except ComponentError (List Partition) :=
  if text.length = 0 then .ok []
  else
    let startWithVchar := isVchar .internationalized text.headI
    partitionLoop text text.enum [] 0 (if startWithVchar then .vchar else .space)

/-- Visibility class used by the partitioner (internationalized `is_vchar`). -/
def visClass (c : Char) : Bool := isVchar .internationalized c

/-- Characters the partitioner accepts: visible, whitespace, CR or LF. -/
def validPartChar (c : Char) : Bool :=
  isVchar .internationalized c || isWs c || c == '\r' || c == '\n'

/-- Maximal runs of equal visibility class (the claim's "alternating maximal
visible-run and whitespace-run substrings"), grouped back to front. -/
def visChunks : List Char → List (Bool × List Char)
  | [] => []
  | c :: rest =>
    match visChunks rest with
    | [] => [(visClass c, [c])]
    | (b, run) :: more =>
      if visClass c == b then (visClass c, c :: run) :: more
      else (visClass c, [c]) :: (b, run) :: more

/-- Chunk-to-partition conversion. -/
def chunkPartition (p : Bool × List Char) : Partition :=
  if p.1 then Partition.vchar p.2 else Partition.space p.2

/-- The partition sequence the claim describes: the maximal-run chunks of the
text, each tagged visible or whitespace. -/
def runsOf (text : List Char) : List Partition :=
  (visChunks text).map chunkPartition

/-- Front-to-back chunk accumulator: the chunks of `run ++ l` given that the
(nonempty) run `run` of class `b` is still open. -/
def visChunksCarry (b : Bool) (run : List Char) : List Char → List (Bool × List Char)
  | [] => [(b, run)]
  | c :: rest =>
    if visClass c == b then visChunksCarry b (run ++ [c]) rest
    else (b, run) :: visChunksCarry (visClass c) [c] rest

/-- The open-run accumulator produces a first chunk of its own class made of
the run followed by a remainder that does not depend on the run. -/
theorem visChunksCarry_shape :
    ∀ (l : List Char) (b : Bool), ∃ r2 more,
      ∀ run : List Char, visChunksCarry b run l = (b, run ++ r2) :: more := by
  intro l
  induction l with
  | nil =>
    intro b
    exact ⟨[], [], fun run => by simp [visChunksCarry]⟩
  | cons c rest ih =>
    intro b
    by_cases h : visClass c = b
    · obtain ⟨r2, more, hih⟩ := ih b
      refine ⟨c :: r2, more, fun run => ?_⟩
      have hbeq : (visClass c == b) = true := by simp [h]
      simp only [visChunksCarry, hbeq, if_true]
      rw [hih (run ++ [c])]
      simp
    · have hbeq : (visClass c == b) = false := by simp [h]
      refine ⟨[], visChunksCarry (visClass c) [c] rest, fun run => ?_⟩
      simp only [visChunksCarry, hbeq, Bool.false_eq_true, if_false]
      simp

/-- Starting the accumulator on the first character computes exactly the
maximal-run chunking. -/
theorem visChunksCarry_spec :
    ∀ (rest : List Char) (c : Char),
      visChunksCarry (visClass c) [c] rest = visChunks (c :: rest) := by
  intro rest
  induction rest with
  | nil => intro c; rfl
  | cons d rest2 ih =>
    intro c
    obtain ⟨r2, more, hsh⟩ := visChunksCarry_shape rest2 (visClass d)
    have hchunks : visChunks (d :: rest2) = (visClass d, d :: r2) :: more := by
      rw [← ih d, hsh [d]]
      rfl
    by_cases h : visClass d = visClass c
    · have hbeq : (visClass d == visClass c) = true := by simp [h]
      have hl : visChunksCarry (visClass c) [c] (d :: rest2) =
          visChunksCarry (visClass c) [c, d] rest2 := by
        simp [visChunksCarry, hbeq]
      rw [hl]
      obtain ⟨r2c, morec, hshc⟩ := visChunksCarry_shape rest2 (visClass c)
      have h1 : visChunksCarry (visClass c) [c, d] rest2 =
          (visClass c, c :: d :: r2c) :: morec := by
        rw [hshc [c, d]]
        rfl
      have h2 : visChunks (d :: rest2) = (visClass c, d :: r2c) :: morec := by
        rw [← ih d]
        have : visClass d = visClass c := h
        rw [this, hshc [d]]
        rfl
      have h3 : visChunks (c :: d :: rest2) = (visClass c, c :: d :: r2c) :: morec := by
        show (match visChunks (d :: rest2) with
          | [] => [(visClass c, [c])]
          | (b, run) :: more =>
            if visClass c == b then (visClass c, c :: run) :: more
            else (visClass c, [c]) :: (b, run) :: more) =
          (visClass c, c :: d :: r2c) :: morec
        rw [h2]
        simp
      rw [h1, h3]
    · have hbeq : (visClass d == visClass c) = false := by simp [h]
      have hl : visChunksCarry (visClass c) [c] (d :: rest2) =
          (visClass c, [c]) :: visChunksCarry (visClass d) [d] rest2 := by
        have hb2 : (visClass d == visClass c) = false := hbeq
        show (if visClass d == visClass c then
            visChunksCarry (visClass c) ([c] ++ [d]) rest2
          else (visClass c, [c]) :: visChunksCarry (visClass d) [d] rest2) =
          (visClass c, [c]) :: visChunksCarry (visClass d) [d] rest2
        rw [hb2]
        simp
      have h3 : visChunks (c :: d :: rest2) =
          (visClass c, [c]) :: visChunks (d :: rest2) := by
        show (match visChunks (d :: rest2) with
          | [] => [(visClass c, [c])]
          | (b, run) :: more =>
            if visClass c == b then (visClass c, c :: run) :: more
            else (visClass c, [c]) :: (b, run) :: more) =
          (visClass c, [c]) :: visChunks (d :: rest2)
        rw [hchunks]
        have hne : (visClass c == visClass d) = false := by
          simp
          exact fun hx => h hx.symm
        simp [hne]
      rw [hl, ih d, h3]

theorem sliceRun (pre run suff : List Char) :
    ((pre ++ run ++ suff).take (pre.length + run.length)).drop pre.length = run := by
  rw [← List.length_append, List.take_left, List.drop_left]

theorem mkPartition_eq (cur : PType) (run : List Char) :
    mkPartition cur run = chunkPartition (cur.isVcharB, run) := by
  cases cur <;> rfl

/-- The partitioner loop, at a state where `pre ++ run` has been consumed
(`run` being the still-open current run and `pre.length` its start index),
computes the chunking of `run ++ suff` with `run` as the open carry chunk,
or fails on the first unacceptable character. -/
theorem partitionLoop_eq :
    ∀ (suff pre run : List Char) (parts : List Partition) (cur : PType),
      partitionLoop (pre ++ run ++ suff)
          (List.enumFrom (pre.length + run.length) suff) parts pre.length cur =
        if suff.all validPartChar then
          .ok (parts ++ (visChunksCarry cur.isVcharB run suff).map chunkPartition)
        else .error (.needAtLastOneVCHAR (pre ++ run ++ suff)) := by
  intro suff
  induction suff with
  | nil =>
    intro pre run parts cur
    rw [List.append_nil]
    show Except.ok (parts ++ [mkPartition cur ((pre ++ run).drop pre.length)]) = _
    rw [List.drop_left, List.all_nil, if_pos rfl, mkPartition_eq]
    rfl
  | cons c suff2 ih =>
    intro pre run parts cur
    have henum : List.enumFrom (pre.length + run.length) (c :: suff2) =
        (pre.length + run.length, c) ::
          List.enumFrom (pre.length + run.length + 1) suff2 := rfl
    rw [henum]
    by_cases hv : isVchar .internationalized c = true
    · have hvalid : validPartChar c = true := by simp [validPartChar, hv]
      have hall : (c :: suff2).all validPartChar = suff2.all validPartChar := by
        simp [List.all_cons, hvalid]
      cases cur with
      | vchar =>
        have hstep : partitionLoop (pre ++ run ++ (c :: suff2))
            ((pre.length + run.length, c) ::
              List.enumFrom (pre.length + run.length + 1) suff2) parts pre.length .vchar =
            partitionLoop (pre ++ run ++ (c :: suff2))
              (List.enumFrom (pre.length + run.length + 1) suff2) parts pre.length .vchar := by
          simp [partitionLoop, hv]
        rw [hstep]
        have htext : pre ++ run ++ (c :: suff2) = pre ++ (run ++ [c]) ++ suff2 := by
          simp
        have hlen : pre.length + run.length + 1 = pre.length + (run ++ [c]).length := by
          simp [Nat.add_assoc]
        rw [htext, hlen, ih]
        have hcarry : visChunksCarry PType.vchar.isVcharB run (c :: suff2) =
            visChunksCarry PType.vchar.isVcharB (run ++ [c]) suff2 := by
          have hb : (visClass c == PType.vchar.isVcharB) = true := by
            simp [visClass, hv, PType.isVcharB]
          simp [visChunksCarry, hb]
        rw [hall, hcarry]
      | space =>
        have hstep : partitionLoop (pre ++ run ++ (c :: suff2))
            ((pre.length + run.length, c) ::
              List.enumFrom (pre.length + run.length + 1) suff2) parts pre.length .space =
            partitionLoop (pre ++ run ++ (c :: suff2))
              (List.enumFrom (pre.length + run.length + 1) suff2)
              (parts ++ [Partition.space
                (((pre ++ run ++ (c :: suff2)).take (pre.length + run.length)).drop
                  pre.length)])
              (pre.length + run.length) .vchar := by
          simp [partitionLoop, hv]
        rw [hstep, sliceRun]
        have htext : pre ++ run ++ (c :: suff2) = (pre ++ run) ++ [c] ++ suff2 := by
          simp
        have hlen1 : pre.length + run.length + 1 = (pre ++ run).length + [c].length := by
          simp
        have hlen2 : pre.length + run.length = (pre ++ run).length := by
          simp
        rw [htext, hlen1, hlen2, ih]
        have hcarry : visChunksCarry PType.space.isVcharB run (c :: suff2) =
            (false, run) :: visChunksCarry (visClass c) [c] suff2 := by
          have hbF : (visClass c == false) = false := by
            rw [show visClass c = true from hv]
            rfl
          show visChunksCarry false run (c :: suff2) = _
          rw [visChunksCarry, hbF]
          simp
        have hcls : visClass c = PType.vchar.isVcharB := by
          simp [visClass, hv, PType.isVcharB]
        rw [hall, hcarry]
        by_cases h2 : suff2.all validPartChar = true
        · rw [if_pos h2, if_pos h2]
          rw [List.map_cons]
          rw [show chunkPartition (false, run) = Partition.space run from rfl]
          rw [← List.append_cons, hcls]
        · rw [if_neg h2, if_neg h2]
    · by_cases hw : (isWs c || c == '\r' || c == '\n') = true
      · have hvalid : validPartChar c = true := by
          simp only [validPartChar, Bool.or_assoc] at *
          simp [hw]
        have hall : (c :: suff2).all validPartChar = suff2.all validPartChar := by
          simp [List.all_cons, hvalid]
        cases cur with
        | space =>
          have hstep : partitionLoop (pre ++ run ++ (c :: suff2))
              ((pre.length + run.length, c) ::
                List.enumFrom (pre.length + run.length + 1) suff2) parts pre.length .space =
              partitionLoop (pre ++ run ++ (c :: suff2))
                (List.enumFrom (pre.length + run.length + 1) suff2) parts pre.length .space := by
            simp [partitionLoop, hv, hw]
          rw [hstep]
          have htext : pre ++ run ++ (c :: suff2) = pre ++ (run ++ [c]) ++ suff2 := by
            simp
          have hlen : pre.length + run.length + 1 = pre.length + (run ++ [c]).length := by
            simp [Nat.add_assoc]
          rw [htext, hlen, ih]
          have hcarry : visChunksCarry PType.space.isVcharB run (c :: suff2) =
              visChunksCarry PType.space.isVcharB (run ++ [c]) suff2 := by
            have hb : (visClass c == PType.space.isVcharB) = true := by
              simp [visClass, hv, PType.isVcharB]
            simp [visChunksCarry, hb]
          rw [hall, hcarry]
        | vchar =>
          have hstep : partitionLoop (pre ++ run ++ (c :: suff2))
              ((pre.length + run.length, c) ::
                List.enumFrom (pre.length + run.length + 1) suff2) parts pre.length .vchar =
              partitionLoop (pre ++ run ++ (c :: suff2))
                (List.enumFrom (pre.length + run.length + 1) suff2)
                (parts ++ [Partition.vchar
                  (((pre ++ run ++ (c :: suff2)).take (pre.length + run.length)).drop
                    pre.length)])
                (pre.length + run.length) .space := by
            simp [partitionLoop, hv, hw]
          rw [hstep, sliceRun]
          have htext : pre ++ run ++ (c :: suff2) = (pre ++ run) ++ [c] ++ suff2 := by
            simp
          have hlen1 : pre.length + run.length + 1 = (pre ++ run).length + [c].length := by
            simp
          have hlen2 : pre.length + run.length = (pre ++ run).length := by
            simp
          rw [htext, hlen1, hlen2, ih]
          have hcarry : visChunksCarry PType.vchar.isVcharB run (c :: suff2) =
              (true, run) :: visChunksCarry (visClass c) [c] suff2 := by
            have hvF : visClass c = false := by
              simp only [Bool.not_eq_true] at hv
              exact hv
            have hbF : (visClass c == true) = false := by
              rw [hvF]
              rfl
            show visChunksCarry true run (c :: suff2) = _
            rw [visChunksCarry, hbF]
            simp
          have hcls : visClass c = PType.space.isVcharB := by
            simp [visClass, hv, PType.isVcharB]
          rw [hall, hcarry]
          by_cases h2 : suff2.all validPartChar = true
          · rw [if_pos h2, if_pos h2]
            rw [List.map_cons]
            rw [show chunkPartition (true, run) = Partition.vchar run from rfl]
            rw [← List.append_cons, hcls]
          · rw [if_neg h2, if_neg h2]
      · have hvalid : validPartChar c = false := by
          simp only [validPartChar, Bool.or_assoc] at *
          simp only [Bool.not_eq_true] at hv hw
          simp [hv, hw]
        have hall : (c :: suff2).all validPartChar = false := by
          simp [List.all_cons, hvalid]
        have hstep : partitionLoop (pre ++ run ++ (c :: suff2))
            ((pre.length + run.length, c) ::
              List.enumFrom (pre.length + run.length + 1) suff2) parts pre.length cur =
            .error (.needAtLastOneVCHAR (pre ++ run ++ (c :: suff2))) := by
          simp [partitionLoop, hv, hw]
        rw [hstep, hall, if_neg (by simp)]

/-- C9: the text partitioner returns the empty partition sequence on the
empty string; fails with the `NeedAtLastOneVCHAR` error iff the string
contains a character that is neither visible, whitespace, CR nor LF; and
otherwise returns the alternating maximal visible-run / whitespace-run
substrings of the text. -/
theorem partition_characterization (text : List Char) :
    partition text =
      if text.all validPartChar then .ok (runsOf text)
      else .error (.needAtLastOneVCHAR text) := by
  cases text with
  | nil => rfl
  | cons c rest =>
    show (if (c :: rest).length = 0 then Except.ok [] else
      partitionLoop (c :: rest) (c :: rest).enum [] 0
        (if isVchar .internationalized (c :: rest).headI then .vchar else .space)) = _
    rw [if_neg (by simp)]
    have hlemma := fun cur => partitionLoop_eq rest [] [c] [] cur
    simp only [List.nil_append, List.singleton_append, List.length_nil,
      List.length_cons, List.length_nil, Nat.zero_add] at hlemma
    by_cases hv : isVchar .internationalized c = true
    · have hcur : (if isVchar .internationalized (c :: rest).headI then PType.vchar
          else PType.space) = .vchar := by
        rw [show (c :: rest).headI = c from rfl, hv]
        rfl
      rw [hcur]
      have hstep : partitionLoop (c :: rest) (c :: rest).enum [] 0 .vchar =
          partitionLoop (c :: rest) (List.enumFrom 1 rest) [] 0 .vchar := by
        show partitionLoop (c :: rest) ((0, c) :: List.enumFrom 1 rest) [] 0 .vchar = _
        simp [partitionLoop, hv]
      rw [hstep, hlemma .vchar]
      have hcv : PType.vchar.isVcharB = visClass c := by
        rw [show visClass c = true from hv]
        rfl
      rw [hcv, visChunksCarry_spec]
      have hall : (c :: rest).all validPartChar = rest.all validPartChar := by
        simp [List.all_cons, validPartChar, hv]
      rw [hall]
      rfl
    · by_cases hw : (isWs c || c == '\r' || c == '\n') = true
      · have hcur : (if isVchar .internationalized (c :: rest).headI then PType.vchar
            else PType.space) = .space := by
          rw [show (c :: rest).headI = c from rfl]
          simp [hv]
        rw [hcur]
        have hstep : partitionLoop (c :: rest) (c :: rest).enum [] 0 .space =
            partitionLoop (c :: rest) (List.enumFrom 1 rest) [] 0 .space := by
          show partitionLoop (c :: rest) ((0, c) :: List.enumFrom 1 rest) [] 0 .space = _
          simp [partitionLoop, hv, hw]
        rw [hstep, hlemma .space]
        have hcv : PType.space.isVcharB = visClass c := by
          have : visClass c = false := by
            simp only [Bool.not_eq_true] at hv
            exact hv
          rw [this]
          rfl
        rw [hcv, visChunksCarry_spec]
        have hvalid : validPartChar c = true := by
          simp only [validPartChar, Bool.or_assoc] at *
          simp [hw]
        have hall : (c :: rest).all validPartChar = rest.all validPartChar := by
          simp [List.all_cons, hvalid]
        rw [hall]
        rfl
      · have hvalid : validPartChar c = false := by
          simp only [validPartChar, Bool.or_assoc] at *
          simp only [Bool.not_eq_true] at hv hw
          simp [hv, hw]
        have hall : (c :: rest).all validPartChar = false := by
          simp [List.all_cons, hvalid]
        have hstep : partitionLoop (c :: rest) (c :: rest).enum [] 0
            (if isVchar .internationalized (c :: rest).headI then PType.vchar
              else PType.space) =
            .error (.needAtLastOneVCHAR (c :: rest)) := by
          show partitionLoop (c :: rest) ((0, c) :: List.enumFrom 1 rest) [] 0 _ =
            .error (.needAtLastOneVCHAR (c :: rest))
          cases hcase : (if isVchar .internationalized (c :: rest).headI then PType.vchar
            else PType.space) <;> simp [partitionLoop, hv, hw]
        rw [hstep, hall, if_neg (by simp)]

/-- Encode-time errors (spec section 7): a structurally valid component that
cannot be represented under the active mail type, or a failed IDNA
transform. -/
inductive EncodingError where
  | invalidLocalPart (got : List Char)
  | idnaFailure (got : List Char)
deriving DecidableEq, Repr

/-- Modelled from the spec: tail of the bare dot-atom-text grammar enforced
by `UnquotedDotAtomTextValidator` (external quoted_string crate): after an
accepted character, atext may continue, or a single dot followed by at least
one atext character. -/
def dotAtomTailB (mt : MailType) : List Char → Bool
  | [] => true
  | c :: rest =>
    if isAtext mt c then dotAtomTailB mt rest
    else if c == '.' then
      match rest with
      | [] => false
      | d :: rest2 => isAtext mt d && dotAtomTailB mt rest2
    else false

/-- Modelled from the spec: bare dot-atom-text under the given mail type
(nonempty, labels of atext separated by single dots). -/
def dotAtomB (mt : MailType) : List Char → Bool
  | [] => false
  | c :: rest => isAtext mt c && dotAtomTailB mt rest

/-- Modelled from the spec: characters representable inside a quoted string
under the chosen MIME spec: visible or whitespace of the spec's character
set (ASCII-only unless the spec is internationalized). -/
def isQuotableChar (mt : MailType) (c : Char) : Bool := isVchar mt c || isWs c

/-- Modelled from the spec: quoted-string interior escaping of the quote and
backslash characters (code points 34 and 92). -/
def escapeQS (s : List Char) : List Char :=
  s.flatMap fun c =>
    if c == Char.ofNat 34 || c == Char.ofNat 92 then [Char.ofNat 92, c] else [c]

/-- Modelled from the spec: `quote_if_needed` of the external quoted_string
crate (spec sections 4.2 and 8): text valid as bare dot-atom-text is
returned verbatim, otherwise it is wrapped as a quoted string with interior
escaping; content not representable under the chosen spec (e.g. any
non-ASCII character when the spec is ASCII) is rejected. -/
def quoteIfNeeded (mt : MailType) (s : List Char) : Option (List Char) :=
  if dotAtomB mt s then some s
  else if s.all (isQuotableChar mt) then
    some (Char.ofNat 34 :: (escapeQS s ++ [Char.ofNat 34]))
  else none

/-- src `LocalPart::encode` (components/email.rs lines 107-126): quote if
needed under the writer's mail type, failing with `InvalidLocalPart`; the
result models the text written between the two fold marks. -/
def LocalPart.encode (mt : MailType) (lp : LocalPart) :
    Except EncodingError (List Char) :=
  match quoteIfNeeded mt lp.text with
  | none => .error (.invalidLocalPart lp.text)
  | some res => .ok res

/-- src `Domain::encode` (components/email.rs lines 205-220), the output
writer modelled from the spec as the text written between the fold marks and
the IDNA transform as an opaque fallible function `pc`: an ASCII-tagged
domain is written verbatim; a UTF-8-tagged domain is written raw when the
writer is internationalized, otherwise its punycode form is written (failing
when the transform fails). -/
def Domain.encode (pc : List Char → Option (List Char)) (mt : MailType)
    (d : Domain) : Except EncodingError (List Char) :=
  match d.item with
  | .ascii s => .ok s
  | .utf8 s =>
    if mt.isInternationalized then .ok s
    else
      match pc s with
      | some p => .ok p
      | none => .error (.idnaFailure s)

/-- src `Email::encode` (components/email.rs lines 83-88): local part, the
literal `@`, then the domain; any failure short-circuits. -/
def Email.encode (pc : List Char → Option (List Char)) (mt : MailType)
    (e : Email) : Except EncodingError (List Char) :=
  match LocalPart.encode mt e.localPart with
  | .error er => .error er
  | .ok l =>
    match Domain.encode pc mt e.domain with
    | .error er => .error er
    | .ok d => .ok (l ++ '@' :: d)

/-- Under a non-internationalized mail type, atext characters are ASCII. -/
theorem isAtext_imp_ascii (mt : MailType) (hmt : mt.isInternationalized = false)
    {c : Char} (h : isAtext mt c = true) : isAsciiChar c = true := by
  simp only [isAtext, decide_eq_true_eq] at h
  simp only [isAsciiChar, decide_eq_true_eq]
  rcases h with h | h | h | h | h
  · omega
  · omega
  · omega
  · simp only [List.mem_cons, List.not_mem_nil, or_false] at h
    omega
  · rw [hmt] at h
    exact absurd h.1 (by simp)

theorem isAtext_at_false (mt : MailType) : isAtext mt '@' = false := by
  cases mt <;> decide

/-- Every character of a string accepted by the dot-atom-tail validator is
atext or a dot. -/
theorem dotAtomTail_chars (mt : MailType) :
    ∀ (n : Nat) (l : List Char), l.length ≤ n → dotAtomTailB mt l = true →
      ∀ c ∈ l, isAtext mt c = true ∨ c = '.' := by
  intro n
  induction n with
  | zero =>
    intro l hl h x hx
    rw [List.length_eq_zero.mp (Nat.le_zero.mp hl)] at hx
    simp at hx
  | succ n ih =>
    intro l hl h x hx
    cases l with
    | nil => simp at hx
    | cons c rest =>
      unfold dotAtomTailB at h
      by_cases hat : isAtext mt c = true
      · rw [if_pos hat] at h
        rcases List.mem_cons.mp hx with rfl | hx2
        · exact Or.inl hat
        · exact ih rest (by simp only [List.length_cons] at hl; omega) h x hx2
      · rw [if_neg hat] at h
        by_cases hdot : c = '.'
        · rw [if_pos (by simp [hdot])] at h
          cases rest with
          | nil => simp at h
          | cons d rest2 =>
            rw [Bool.and_eq_true] at h
            rcases List.mem_cons.mp hx with rfl | hx2
            · exact Or.inr hdot
            · rcases List.mem_cons.mp hx2 with rfl | hx3
              · exact Or.inl h.1
              · exact ih rest2 (by simp only [List.length_cons] at hl; omega) h.2 x hx3
        · rw [if_neg (by simp [hdot])] at h
          simp at h

/-- Every character of a bare dot-atom-text string is atext or a dot. -/
theorem dotAtom_chars (mt : MailType) (l : List Char) (h : dotAtomB mt l = true) :
    ∀ c ∈ l, isAtext mt c = true ∨ c = '.' := by
  cases l with
  | nil => simp [dotAtomB] at h
  | cons c rest =>
    rw [dotAtomB, Bool.and_eq_true] at h
    intro x hx
    rcases List.mem_cons.mp hx with rfl | hx2
    · exact Or.inl h.1
    · exact dotAtomTail_chars mt rest.length rest le_rfl h.2 x hx2

/-- A bare dot-atom-text string never contains `@`. -/
theorem dotAtom_no_at (mt : MailType) (l : List Char) (h : dotAtomB mt l = true) :
    '@' ∉ l := by
  intro hx
  rcases dotAtom_chars mt l h '@' hx with h1 | h1
  · rw [isAtext_at_false] at h1
    exact absurd h1 (by simp)
  · exact absurd h1 (by decide)

/-- C5: encoding a LocalPart whose text contains a non-ASCII character
against a plain-ASCII writer fails with `InvalidLocalPart`: the text is
neither bare dot-atom-text under the ASCII spec nor quotable, so no quoting
or transcoding is attempted. -/
theorem localpart_nonascii_ascii_encode_fails (s : List Char)
    (h : ∃ c ∈ s, isAsciiChar c = false) :
    LocalPart.encode .ascii ⟨s⟩ = .error (.invalidLocalPart s) := by
  obtain ⟨c, hc, hna⟩ := h
  have hna2 : ¬ c.toNat ≤ 127 := by
    simpa [isAsciiChar] using hna
  have h1 : dotAtomB .ascii s = false := by
    by_contra hx
    simp only [Bool.not_eq_false] at hx
    rcases dotAtom_chars .ascii s hx c hc with h2 | h2
    · rw [isAtext_imp_ascii .ascii rfl h2] at hna
      exact absurd hna (by simp)
    · subst h2
      exact hna2 (by decide)
  have h2 : s.all (isQuotableChar .ascii) = false := by
    rw [Bool.eq_false_iff]
    intro hall
    have := List.all_eq_true.mp hall c hc
    simp only [isQuotableChar, isVchar, isWs, MailType.isInternationalized,
      Bool.or_eq_true, decide_eq_true_eq] at this
    rcases this with (h3 | h3) | h3
    · exact hna2 (by omega)
    · exact absurd h3.1 (by simp)
    · rcases h3 with h3 | h3 <;> exact hna2 (by omega)
  simp only [LocalPart.encode, quoteIfNeeded, h1, Bool.false_eq_true, if_false,
    h2, if_false]

/-- C5 (witness): the concrete local part `"ö"`. -/
theorem localpart_nonascii_ascii_encode_fails_witness :
    (∃ c ∈ ['ö'], isAsciiChar c = false) ∧
      LocalPart.encode .ascii ⟨['ö']⟩ = .error (.invalidLocalPart ['ö']) :=
  ⟨by decide, localpart_nonascii_ascii_encode_fails ['ö'] (by decide)⟩

/-- The domain-literal loop's final all-ASCII flag is the conjunction of the
incoming flag with `all isAsciiChar` over the remaining characters. -/
theorem checkDomainLitLoop_ascii_flag (d : List Char) :
    ∀ (rest : List Char) (a b : Bool),
      checkDomainLitLoop d rest a = .ok b → b = (a && rest.all isAsciiChar) := by
  intro rest
  induction rest with
  | nil =>
    intro a b h
    simp only [checkDomainLitLoop] at h
    cases h
    simp
  | cons c cs ih =>
    intro a b h
    simp only [checkDomainLitLoop] at h
    by_cases hd : (isDtext .internationalized c || isWs c) = true
    · rw [hd] at h
      simp only [Bool.not_true, if_neg (Bool.false_ne_true)] at h
      have := ih _ _ h
      subst this
      cases a <;> cases hx : isAsciiChar c <;> simp [List.all_cons, hx]
    · simp only [Bool.not_eq_true] at hd
      rw [hd] at h
      simp at h

/-- A successful `check_domain` returns the ASCII tag exactly when every
character of the input is ASCII. -/
theorem checkDomain_ok_tag (s : List Char) (t : MailType)
    (h : checkDomain s = .ok t) :
    t = (if s.all isAsciiChar then .ascii else .internationalized) := by
  unfold checkDomain at h
  by_cases hbr : isBracketed s = true
  · rw [if_pos hbr] at h
    cases hloop : checkDomainLitLoop s s true with
    | error e => rw [hloop] at h; simp at h
    | ok b =>
      rw [hloop] at h
      have hb := checkDomainLitLoop_ascii_flag s s true b hloop
      simp only [Bool.true_and] at hb
      subst hb
      cases h
      rfl
  · rw [if_neg hbr] at h
    cases hloop : checkDomainLoop s s true false with
    | error e => rw [hloop] at h; simp at h
    | ok b =>
      rw [hloop] at h
      have hb := checkDomainLoop_ascii_flag s s true false b hloop
      simp only [Bool.true_and] at hb
      subst hb
      cases h
      rfl

/-- A domain whose grammar check succeeds is stored tagged by its actual
character content. -/
theorem domain_tryFrom_ok (s : List Char) (h : ∃ t, checkDomain s = .ok t) :
    Domain.tryFrom s = .ok ⟨if s.all isAsciiChar then .ascii s else .utf8 s⟩ := by
  obtain ⟨t, ht⟩ := h
  have htag := checkDomain_ok_tag s t ht
  subst htag
  unfold Domain.tryFrom
  rw [ht]
  by_cases ha : s.all isAsciiChar = true
  · rw [if_pos ha, if_pos ha]
  · rw [if_neg ha, if_neg ha]

/-- C3: for a local part valid as bare dot-atom-text under the writer's mail
type and a domain accepted by the domain grammar, Email construction from
`local ++ "@" ++ domain` succeeds, and encoding writes
`local ++ "@" ++ domEnc`, where `domEnc` is the domain itself when it is
all-ASCII and the IDNA/punycode form `pc domain` when the domain contains
non-ASCII characters and the writer's MailType is plain ASCII. -/
theorem email_construct_encode_roundtrip
    (pc : List Char → Option (List Char)) (mt : MailType)
    (lpart domain domEnc : List Char)
    (hl : dotAtomB mt lpart = true)
    (hd : ∃ t, checkDomain domain = .ok t)
    (hcase : (domain.all isAsciiChar = true ∧ domEnc = domain) ∨
      (domain.all isAsciiChar = false ∧ mt = .ascii ∧ pc domain = some domEnc)) :
    ∃ e, Email.new (lpart ++ '@' :: domain) = .ok e ∧
      Email.encode pc mt e = .ok (lpart ++ '@' :: domEnc) := by
  have hsplit := findSplitAt_append lpart domain (dotAtom_no_at mt lpart hl)
  have hdok := domain_tryFrom_ok domain hd
  refine ⟨⟨⟨lpart⟩, ⟨if domain.all isAsciiChar then .ascii domain else .utf8 domain⟩⟩,
    ?_, ?_⟩
  · unfold Email.new
    rw [hsplit]
    show (match Domain.tryFrom domain with
      | Except.error e => Except.error e
      | Except.ok d =>
        Except.ok (Email.mk (LocalPart.mk lpart) d)) =
      Except.ok (Email.mk (LocalPart.mk lpart)
        (Domain.mk (if domain.all isAsciiChar then .ascii domain else .utf8 domain)))
    rw [hdok]
  · have hlenc : LocalPart.encode mt ⟨lpart⟩ = .ok lpart := by
      simp [LocalPart.encode, quoteIfNeeded, hl]
    have hdenc : Domain.encode pc mt
        ⟨if domain.all isAsciiChar then .ascii domain else .utf8 domain⟩ =
        .ok domEnc := by
      rcases hcase with ⟨ha, rfl⟩ | ⟨ha, hmt, hpc⟩
      · rw [if_pos ha]
        rfl
      · rw [ha]
        subst hmt
        simp [Domain.encode, MailType.isInternationalized, hpc]
    unfold Email.encode
    rw [hlenc, hdenc]

/-- C3 (witness): the all-ASCII instance `"a@b"` under an ASCII writer. -/
theorem email_construct_encode_roundtrip_witness :
    ∃ e, Email.new ['a', '@', 'b'] = .ok e ∧
      Email.encode (fun _ => none) .ascii e = .ok ['a', '@', 'b'] := by
  have h := email_construct_encode_roundtrip (fun _ => none) .ascii ['a'] ['b'] ['b']
    (by decide) ⟨.ascii, by decide⟩ (Or.inl ⟨by decide, rfl⟩)
  exact h

/-- Contextual-validation errors (src `error.rs` `HeaderValidationError` /
`BuildInValidationError`). -/
inductive HeaderValidationError where
  | multiMailboxFromWithoutSender
  | resentDateFieldMissing
  | multiMailboxResentFromWithoutResentSender
  | custom (code : Nat)
deriving DecidableEq, Repr

/-- Type-erased header component stored in the map (src: the boxed
`HeaderObj` bodies; the sum covers the concrete component kinds the claims
touch, with `otherComponent` standing for every other concrete type). -/
inductive HeaderComp where
  | mailboxList (mbs : List (List Char))
  | mailbox (mb : List Char)
  | dateTime
  | unstructured (s : List Char)
  | otherComponent
deriving DecidableEq, Repr

/-- src `HeaderObj::downcast_ref::<MailboxList>` as used by the resent
validator: succeeds only when the stored component really is a MailboxList. -/
def downcastMailboxList : HeaderComp → Option (List (List Char))
  | .mailboxList mbs => some mbs
  | _ => none

/-- One entry of the header map: header name, boxed component, and the
metadata of its header kind — the arity flag `MAX_ONE` and the contextual
validator. Validator function pointers are represented by numeric
identities (the source deduplicates validators by raw fn-pointer identity,
spec sections 4.5 and 9); an interpretation `vt : Nat → ...` maps an
identity to the function it points to. -/
structure HeaderEntry where
  name : List Char
  comp : HeaderComp
  maxOne : Bool
  validator : Option Nat
deriving DecidableEq, Repr

/-- src `HeaderMap` (map/mod.rs lines 93-96): a total-order multi-map of
entries, modelled by its insertion-ordered entry list. -/
structure HeaderMap where
  entries : List HeaderEntry
deriving DecidableEq, Repr

def HeaderMap.empty : HeaderMap := ⟨[]⟩

/-- src `HeaderMap::len` (map/mod.rs lines 129-131): the number of entries. -/
def HeaderMap.len (m : HeaderMap) : Nat := m.entries.length

/-- src `HeaderMap::add` (map/mod.rs lines 291-298): box the header and
delegate to `TotalOrderMultiMap::add`, which (modelled from the spec:
order-preserving multi-map of the external total_order_multi_map crate)
appends the entry at the end of the total insertion order. No compatibility
check is performed and the operation cannot fail. -/
def HeaderMap.add (m : HeaderMap) (e : HeaderEntry) : HeaderMap :=
  ⟨m.entries ++ [e]⟩

/-- src `HeaderMap::get_untyped` (map/mod.rs lines 222-225): all entries
stored under a name, in insertion order. -/
def HeaderMap.getUntyped (m : HeaderMap) (name : List Char) : List HeaderEntry :=
  m.entries.filter fun e => e.name == name

/-- src `HeaderMap::combine` (map/mod.rs lines 328-331):
`self.inner_map.extend(other.inner_map)` — extend (modelled from the spec)
adds each of the other map's entries in their insertion order. -/
def HeaderMap.combine (m other : HeaderMap) : HeaderMap :=
  other.entries.foldl HeaderMap.add m

/-- C1: `combine` appends the other map's entries, preserving their relative
insertion order, after this map's entries; the length adds up. The operation
is infallible in this revision (`extend` returns no error), so the claim's
all-or-nothing rollback condition holds vacuously: there is no failing run. -/
theorem combine_appends_in_order (m other : HeaderMap) :
    (m.combine other).entries = m.entries ++ other.entries ∧
      (m.combine other).len = m.len + other.len := by
  have h : ∀ (l : List HeaderEntry) (m0 : HeaderMap),
      (l.foldl HeaderMap.add m0).entries = m0.entries ++ l := by
    intro l
    induction l with
    | nil => intro m0; simp
    | cons e rest ih =>
      intro m0
      rw [List.foldl_cons, ih]
      simp [HeaderMap.add]
  constructor
  · exact h other.entries m
  · show (m.combine other).entries.length = m.entries.length + other.entries.length
    rw [show (m.combine other).entries = m.entries ++ other.entries from
      h other.entries m]
    simp

/-- C2 (amended): insertion is unconditional — `add` appends the entry under
its name regardless of the metadata of the entries already stored there, so
the per-name group gains the new entry at its end and the map grows by one. -/
theorem add_appends_unconditionally (m : HeaderMap) (e : HeaderEntry) :
    (m.add e).getUntyped e.name = m.getUntyped e.name ++ [e] ∧
      (m.add e).len = m.len + 1 := by
  constructor
  · unfold HeaderMap.add HeaderMap.getUntyped
    rw [List.filter_append]
    simp
  · unfold HeaderMap.add HeaderMap.len
    simp

/-- C2 (counterexample): two entries under the same header name with
incompatible metadata (different arity flag and different validator
identity): the second insertion does not fail — `add` has no error path —
and both entries are silently stored. -/
theorem incompatible_metadata_insertion_accepted :
    (HeaderMap.empty.add ⟨['S'], .unstructured ['x'], true, none⟩).add
        ⟨['S'], .otherComponent, false, some 7⟩ =
      ⟨[⟨['S'], .unstructured ['x'], true, none⟩,
        ⟨['S'], .otherComponent, false, some 7⟩]⟩ ∧
      (⟨['S'], .unstructured ['x'], true, none⟩ : HeaderEntry).maxOne ≠
        (⟨['S'], .otherComponent, false, some 7⟩ : HeaderEntry).maxOne := by
  constructor
  · rfl
  · decide

/-- src `use_contextual_validators` loop (map/mod.rs lines 154-165),
instrumented: walk the validator references of the entries in order with the
`seen_validators` set (membership in the accumulated list models the
`HashSet` insert-if-new), invoking each unseen validator; the first
component is the ghost trace of the invoked validator identities (the
source computes only the second component, the returned `Result`). -/
def validatorsLoop (vt : Nat → HeaderMap → Except HeaderValidationError Unit)
    (m : HeaderMap) :
    List Nat → List Nat → List Nat × Except HeaderValidationError Unit
  | [], _ => ([], .ok ())
  | v :: rest, seen =>
    if v ∈ seen then validatorsLoop vt m rest seen
    else
      match vt v m with
      | .ok () =>
        let r := validatorsLoop vt m rest (v :: seen)
        (v :: r.1, r.2)
      | .error e => ([v], .error e)

/-- src `HeaderMap::use_contextual_validators` (map/mod.rs lines 154-165):
run every validator referenced by an entry, deduplicated by identity, with
the map itself as argument; abort on the first failure. -/
def useContextualValidators (vt : Nat → HeaderMap → Except HeaderValidationError Unit)
    (m : HeaderMap) : List Nat × Except HeaderValidationError Unit :=
  validatorsLoop vt m (m.entries.filterMap HeaderEntry.validator) []

/-- First-occurrence deduplication relative to an already-seen set. -/
def dedupFrom (seen : List Nat) : List Nat → List Nat
  | [] => []
  | v :: rest =>
    if v ∈ seen then dedupFrom seen rest else v :: dedupFrom (v :: seen) rest

/-- First-occurrence deduplication (the claim's "deduplicated by function
identity"). -/
def dedupFirst (l : List Nat) : List Nat := dedupFrom [] l

/-- Whether validator `v` succeeds on `m`. -/
def vOk (vt : Nat → HeaderMap → Except HeaderValidationError Unit)
    (m : HeaderMap) (v : Nat) : Bool := vt v m == .ok ()

theorem dedupFrom_not_mem_seen :
    ∀ (l seen : List Nat) (v : Nat), v ∈ dedupFrom seen l → v ∉ seen := by
  intro l
  induction l with
  | nil => intro seen v h; simp [dedupFrom] at h
  | cons w rest ih =>
    intro seen v h
    simp only [dedupFrom] at h
    by_cases hw : w ∈ seen
    · rw [if_pos hw] at h
      exact ih seen v h
    · rw [if_neg hw] at h
      rcases List.mem_cons.mp h with rfl | h2
      · exact hw
      · intro hv
        exact ih (w :: seen) v h2 (List.mem_cons_of_mem _ hv)

theorem dedupFrom_nodup : ∀ (l seen : List Nat), (dedupFrom seen l).Nodup := by
  intro l
  induction l with
  | nil => intro seen; simp [dedupFrom]
  | cons w rest ih =>
    intro seen
    simp only [dedupFrom]
    by_cases hw : w ∈ seen
    · rw [if_pos hw]
      exact ih seen
    · rw [if_neg hw]
      refine List.nodup_cons.mpr ⟨?_, ih (w :: seen)⟩
      intro hmem
      exact dedupFrom_not_mem_seen rest (w :: seen) w hmem (List.mem_cons_self _ _)

/-- The validator loop runs exactly the deduplicated references until the
first failing one: its trace is the succeeding prefix plus that validator,
and its result is the first failure (or success when none fails). -/
theorem validatorsLoop_eq (vt : Nat → HeaderMap → Except HeaderValidationError Unit)
    (m : HeaderMap) :
    ∀ (vs seen : List Nat),
      validatorsLoop vt m vs seen =
        ((dedupFrom seen vs).takeWhile (vOk vt m) ++
          ((dedupFrom seen vs).dropWhile (vOk vt m)).take 1,
         match ((dedupFrom seen vs).dropWhile (vOk vt m)).head? with
         | none => .ok ()
         | some v => vt v m) := by
  intro vs
  induction vs with
  | nil => intro seen; rfl
  | cons v rest ih =>
    intro seen
    simp only [validatorsLoop, dedupFrom]
    by_cases hv : v ∈ seen
    · rw [if_pos hv, if_pos hv]
      exact ih seen
    · rw [if_neg hv, if_neg hv]
      cases hres : vt v m with
      | ok u =>
        cases u
        have hok : vOk vt m v = true := by simp [vOk, hres]
        rw [List.takeWhile_cons, List.dropWhile_cons]
        rw [hok]
        simp only [if_true, List.cons_append]
        rw [ih (v :: seen)]
      | error e =>
        have hbad : vOk vt m v = false := by simp [vOk, hres]
        rw [List.takeWhile_cons, List.dropWhile_cons]
        rw [hbad]
        simp only [Bool.false_eq_true, if_false, List.nil_append, List.head?_cons]
        rw [hres]
        simp

/-- C8: one run of contextual validation invokes each distinct referenced
validator identity (first-occurrence deduplication over the entries'
validator references) at most once, with the map as argument; when every
referenced validator succeeds, each is invoked exactly once and the run
succeeds; the trace is the succeeding prefix of the deduplicated references
plus the first failing validator, whose error is returned to the caller. -/
theorem contextual_validators_dedup_run
    (vt : Nat → HeaderMap → Except HeaderValidationError Unit) (m : HeaderMap) :
    (useContextualValidators vt m).1 =
        (dedupFirst (m.entries.filterMap HeaderEntry.validator)).takeWhile (vOk vt m)
          ++ ((dedupFirst (m.entries.filterMap HeaderEntry.validator)).dropWhile
            (vOk vt m)).take 1 ∧
      (useContextualValidators vt m).2 =
        (match ((dedupFirst (m.entries.filterMap HeaderEntry.validator)).dropWhile
            (vOk vt m)).head? with
         | none => .ok ()
         | some v => vt v m) ∧
      (∀ v : Nat, (useContextualValidators vt m).1.count v ≤ 1) ∧
      ((∀ v ∈ dedupFirst (m.entries.filterMap HeaderEntry.validator),
          vt v m = .ok ()) →
        (useContextualValidators vt m).1 =
            dedupFirst (m.entries.filterMap HeaderEntry.validator) ∧
          (useContextualValidators vt m).2 = .ok ()) := by
  set refs := dedupFirst (m.entries.filterMap HeaderEntry.validator) with hrefs
  have hrun : useContextualValidators vt m =
      (refs.takeWhile (vOk vt m) ++ (refs.dropWhile (vOk vt m)).take 1,
       match (refs.dropWhile (vOk vt m)).head? with
       | none => .ok ()
       | some v => vt v m) :=
    validatorsLoop_eq vt m (m.entries.filterMap HeaderEntry.validator) []
  have hnodup : refs.Nodup := dedupFrom_nodup _ []
  refine ⟨by rw [hrun], by rw [hrun], ?_, ?_⟩
  · intro v
    rw [hrun]
    have hsub : (refs.takeWhile (vOk vt m) ++
        (refs.dropWhile (vOk vt m)).take 1).Sublist refs := by
      have h1 : ((refs.dropWhile (vOk vt m)).take 1).Sublist
          (refs.dropWhile (vOk vt m)) := List.take_sublist 1 _
      have h2 := h1.append_left (refs.takeWhile (vOk vt m))
      rw [List.takeWhile_append_dropWhile] at h2
      exact h2
    calc (refs.takeWhile (vOk vt m) ++
            (refs.dropWhile (vOk vt m)).take 1).count v
        ≤ refs.count v := hsub.count_le v
      _ ≤ 1 := List.nodup_iff_count_le_one.mp hnodup v
  · intro hall
    have hdrop : refs.dropWhile (vOk vt m) = [] := by
      rw [List.dropWhile_eq_nil_iff]
      intro x hx
      simp [vOk, hall x hx]
    have htake : refs.takeWhile (vOk vt m) = refs := by
      have := List.takeWhile_append_dropWhile (vOk vt m) refs
      rw [hdrop, List.append_nil] at this
      exact this
    rw [hrun, hdrop, htake]
    exact ⟨by simp, rfl⟩

/-- C8 (witness): one validator identity registered under two different
header names is invoked exactly once and the run succeeds. -/
theorem contextual_validators_dedup_run_witness :
    (useContextualValidators (fun _ _ => .ok ())
        ⟨[⟨['A'], .dateTime, false, some 5⟩, ⟨['B'], .dateTime, false, some 5⟩]⟩).1 =
        [5] ∧
      (useContextualValidators (fun _ _ => .ok ())
        ⟨[⟨['A'], .dateTime, false, some 5⟩, ⟨['B'], .dateTime, false, some 5⟩]⟩).2 =
        .ok () := by
  have h := (contextual_validators_dedup_run (fun _ _ => .ok ())
    ⟨[⟨['A'], .dateTime, false, some 5⟩, ⟨['B'], .dateTime, false, some 5⟩]⟩).2.2.2
    (fun v hv => rfl)
  exact ⟨h.1.trans (by rfl), h.2⟩

def resentPfx : List Char := ['R', 'e', 's', 'e', 'n', 't', '-']

def resentDateName : List Char :=
  ['R', 'e', 's', 'e', 'n', 't', '-', 'D', 'a', 't', 'e']

def resentFromName : List Char :=
  ['R', 'e', 's', 'e', 'n', 't', '-', 'F', 'r', 'o', 'm']

def resentSenderName : List Char :=
  ['R', 'e', 's', 'e', 'n', 't', '-', 'S', 'e', 'n', 'd', 'e', 'r']

/-- Rust `HashMap::contains_key` over a block (names are unique within a
block, so an association list models the HashMap). -/
def containsKey (block : List (List Char × HeaderComp)) (name : List Char) : Bool :=
  block.any fun kv => kv.1 == name

/-- Rust `HashMap::get` over a block. -/
def lookupKey (block : List (List Char × HeaderComp)) (name : List Char) :
    Option HeaderComp :=
  (block.find? fun kv => kv.1 == name).map Prod.snd

/-- src `validate_resent_block` (headers/mod.rs lines 151-171): the block
must contain Resent-Date; and when its Resent-From entry downcasts to a
MailboxList with more than one mailbox, the block must contain
Resent-Sender. -/
def validateResentBlock (block : List (List Char × HeaderComp)) :
    Except HeaderValidationError Unit :=
  if !(containsKey block resentDateName) then .error .resentDateFieldMissing
  else
    let needsSender :=
      match (lookupKey block resentFromName).bind downcastMailboxList with
      | some mbs => decide (1 < mbs.length)
      | none => false
    if needsSender && !(containsKey block resentSenderName) then
      .error .multiMailboxResentFromWithoutResentSender
    else .ok ()

/-- src `resent_any` loop (headers/mod.rs lines 178-187): fold the resent
entries, validating and restarting the block whenever a name already present
in the current block recurs; the final block is validated after the loop. -/
def resentLoop : List (List Char × HeaderComp) → List (List Char × HeaderComp) →
    Except HeaderValidationError Unit
  | [], block => validateResentBlock block
  | (n, c) :: rest, block =>
    if containsKey block n then
      match validateResentBlock block with
      | .error e => .error e
      | .ok _ => resentLoop rest [(n, c)]
    else resentLoop rest (block ++ [(n, c)])

/-- src `resent_any` (headers/mod.rs lines 173-188): scan the map's entries
in container order, keep those whose name starts with `Resent-`, and run the
block loop. -/
def resentAny (m : HeaderMap) : Except HeaderValidationError Unit :=
  resentLoop ((m.entries.map fun e => (e.name, e.comp)).filter
    fun kv => resentPfx.isPrefixOf kv.1) []

/-- The consecutive blocks the loop builds (ghost reconstruction of the
grouping: a new block starts when a name already present recurs; the final,
possibly empty block is included). -/
def resentBlocksLoop : List (List Char × HeaderComp) → List (List Char × HeaderComp) →
    List (List (List Char × HeaderComp))
  | [], block => [block]
  | (n, c) :: rest, block =>
    if containsKey block n then block :: resentBlocksLoop rest [(n, c)]
    else resentBlocksLoop rest (block ++ [(n, c)])

def resentBlocks (m : HeaderMap) : List (List (List Char × HeaderComp)) :=
  resentBlocksLoop ((m.entries.map fun e => (e.name, e.comp)).filter
    fun kv => resentPfx.isPrefixOf kv.1) []

/-- A block passes `validate_resent_block` iff it contains Resent-Date and,
when its Resent-From entry is a MailboxList with more than one mailbox, it
also contains Resent-Sender. -/
theorem validateResentBlock_ok_iff (b : List (List Char × HeaderComp)) :
    validateResentBlock b = .ok () ↔
      containsKey b resentDateName = true ∧
        ((∃ mbs, (lookupKey b resentFromName).bind downcastMailboxList = some mbs ∧
            1 < mbs.length) →
          containsKey b resentSenderName = true) := by
  unfold validateResentBlock
  by_cases hd : containsKey b resentDateName = true
  · have h1 : (!containsKey b resentDateName) = false := by simp [hd]
    rw [h1]
    simp only [Bool.false_eq_true, if_false]
    cases hlook : (lookupKey b resentFromName).bind downcastMailboxList with
    | none => simp [hd]
    | some mbs =>
      by_cases hlen : 1 < mbs.length
      · by_cases hs : containsKey b resentSenderName = true
        · simp [hlen, hs, hd]
        · have hs2 : containsKey b resentSenderName = false := by simpa using hs
          simp [hlen, hs2, hd]
      · simp [hlen, hd]
  · have hd2 : containsKey b resentDateName = false := by simpa using hd
    have h1 : (!containsKey b resentDateName) = true := by simp [hd2]
    rw [h1]
    simp [hd2]

/-- The loop succeeds iff every block it builds (the trailing block
included) passes validation. -/
theorem resentLoop_ok_iff :
    ∀ (rest block : List (List Char × HeaderComp)),
      resentLoop rest block = .ok () ↔
        ∀ b ∈ resentBlocksLoop rest block, validateResentBlock b = .ok () := by
  intro rest
  induction rest with
  | nil =>
    intro block
    simp [resentLoop, resentBlocksLoop]
  | cons nc rest2 ih =>
    intro block
    obtain ⟨n, c⟩ := nc
    simp only [resentLoop, resentBlocksLoop]
    by_cases hk : containsKey block n = true
    · rw [if_pos hk, if_pos hk]
      cases hval : validateResentBlock block with
      | error e =>
        constructor
        · intro h
          exact absurd h (by simp)
        · intro h
          have := h block (List.mem_cons_self _ _)
          rw [hval] at this
          exact absurd this (by simp)
      | ok u =>
        cases u
        rw [ih]
        constructor
        · intro h b hb
          rcases List.mem_cons.mp hb with rfl | hb2
          · exact hval
          · exact h b hb2
        · intro h b hb
          exact h b (List.mem_cons_of_mem _ hb)
    · rw [if_neg hk, if_neg hk]
      exact ih (block ++ [(n, c)])

/-- The blocks partition the filtered resent entries in order. -/
theorem resentBlocksLoop_join :
    ∀ (rest block : List (List Char × HeaderComp)),
      (resentBlocksLoop rest block).flatten = block ++ rest := by
  intro rest
  induction rest with
  | nil => intro block; simp [resentBlocksLoop]
  | cons nc rest2 ih =>
    intro block
    obtain ⟨n, c⟩ := nc
    simp only [resentBlocksLoop]
    by_cases hk : containsKey block n = true
    · rw [if_pos hk]
      rw [List.flatten_cons, ih [(n, c)]]
      simp
    · rw [if_neg hk]
      rw [ih (block ++ [(n, c)])]
      simp

/-- C7: running the resent contextual validator scans the header entries in
container order, groups the `Resent-`-prefixed entries into consecutive
blocks (a new block starts when a name already present in the current block
recurs; together the blocks are exactly the filtered entries in order), and
succeeds iff every completed block contains a Resent-Date entry and every
block whose Resent-From entry holds more than one mailbox contains a
Resent-Sender entry. -/
theorem resent_validator_characterization (m : HeaderMap) :
    (resentAny m = .ok () ↔
      ∀ b ∈ resentBlocks m,
        containsKey b resentDateName = true ∧
          ((∃ mbs,
              (lookupKey b resentFromName).bind downcastMailboxList = some mbs ∧
                1 < mbs.length) →
            containsKey b resentSenderName = true)) ∧
      (resentBlocks m).flatten =
        (m.entries.map fun e => (e.name, e.comp)).filter
          (fun kv => resentPfx.isPrefixOf kv.1) := by
  constructor
  · rw [resentAny, resentLoop_ok_iff]
    constructor
    · intro h b hb
      exact (validateResentBlock_ok_iff b).mp (h b hb)
    · intro h b hb
      exact (validateResentBlock_ok_iff b).mpr (h b hb)
  · exact resentBlocksLoop_join _ []

/-- C7 (witness): a concrete single block carrying Resent-Date, a
two-mailbox Resent-From and a Resent-Sender passes validation. -/
theorem resent_validator_characterization_witness :
    resentAny ⟨[⟨resentDateName, .dateTime, false, some 1⟩,
      ⟨resentFromName, .mailboxList [['a'], ['b']], false, some 1⟩,
      ⟨resentSenderName, .mailbox ['a'], false, some 1⟩]⟩ = .ok () := by
  apply (resent_validator_characterization _).1.mpr
  intro b hb
  have hblocks : resentBlocks ⟨[⟨resentDateName, .dateTime, false, some 1⟩,
      ⟨resentFromName, .mailboxList [['a'], ['b']], false, some 1⟩,
      ⟨resentSenderName, .mailbox ['a'], false, some 1⟩]⟩ =
      [[(resentDateName, HeaderComp.dateTime),
        (resentFromName, .mailboxList [['a'], ['b']]),
        (resentSenderName, .mailbox ['a'])]] := by
    decide
  rw [hblocks] at hb
  have hb2 : b = [(resentDateName, HeaderComp.dateTime),
      (resentFromName, .mailboxList [['a'], ['b']]),
      (resentSenderName, .mailbox ['a'])] := by
    simpa using hb
  subst hb2
  exact ⟨by decide, fun _ => by decide⟩

/-- src `ComponentCreationError` (error.rs lines 104-108): the component
name and the offending text (`str_context`). -/
structure ComponentCreationError where
  component : List Char
  strContext : List Char
deriving DecidableEq, Repr

/-- src `MessageID` (components/message_id.rs lines 14-16). -/
structure MessageID where
  messageId : SimpleItem
deriving DecidableEq, Repr

/-- nom scan of `dot_atom_text` after its first character: the tail of the
leading `take_while1!(atext)` fused with
`many0!(tuple!(char!('.'), take_while1!(atext)))` (message_id.rs lines
177-185) into one structural scan. `none` models a nom Error/Incomplete
outcome that fails the whole parse; `some r` models `Done(r, _)`. The
branches reproduce nom exactly as pinned by the parser's own unit tests:
a trailing dot at end of input is Incomplete (`"abc."`), a dot followed by
a non-atext character stops the loop before the dot (`"abc..de"` stops
with rest `"..de"`), and any other non-atext character ends the match. -/
def dotTail : List Char → Option (List Char)
  | [] => some []
  | c :: rest =>
    if isAtext .internationalized c then dotTail rest
    else if c = '.' then
      match rest with
      | [] => none
      | d :: rest2 =>
        if isAtext .internationalized d then dotTail rest2
        else some (c :: rest)
    else some (c :: rest)

/-- src `dot_atom_text` (message_id.rs lines 177-185): one or more atext
characters, then zero or more dot-separated nonempty atext groups;
`take_while1!` fails (Error/Incomplete) on empty input or a non-atext
first character. -/
def dotAtomTextP (input : List Char) : Option (List Char) :=
  match input with
  | [] => none
  | c :: rest =>
    if isAtext .internationalized c then dotTail rest
    else none

/-- src `no_fold_literal` (message_id.rs lines 167-175): `[`, any number of
dtext characters, `]`. -/
def noFoldLiteralP : List Char → Option (List Char)
  | [] => none
  | c :: rest =>
    if c = '[' then
      match rest.dropWhile (isDtext .internationalized) with
      | d :: rest2 => if d = ']' then some rest2 else none
      | [] => none
    else none

/-- src `id_right` (message_id.rs lines 159-165): `no_fold_literal`, else
`dot_atom_text` (nom `alt!`; the Incomplete nuance of `alt!` is irrelevant
here because both branches fail on exactly the inputs where the collapsed
order fails). -/
def idRightP (input : List Char) : Option (List Char) :=
  match noFoldLiteralP input with
  | some rest => some rest
  | none => dotAtomTextP input

/-- src `parse_message_id` (message_id.rs lines 145-152): `id_left`
(= `dot_atom_text`), the literal `@`, then `id_right`. -/
def parseMessageId (input : List Char) : Option (List Char) :=
  match dotAtomTextP input with
  | none => none
  | some rest =>
    match rest with
    | r1 :: rest2 => if r1 = '@' then idRightP rest2 else none
    | [] => none

/-- src `MessageID: HeaderTryFrom` (message_id.rs lines 30-45): construction
succeeds only when the parser consumes the whole input (`Done("", _)`); any
other outcome yields a creation error carrying the component name
`"MessageID"` and the offending text. The stored item is tagged
ASCII/UTF-8 from the input. -/
def MessageID.tryFrom (input : List Char) : Except ComponentCreationError MessageID :=
  match parseMessageId input with
  | some [] => .ok ⟨simpleItemOfInput input⟩
  | _ => .error ⟨['M', 'e', 's', 's', 'a', 'g', 'e', 'I', 'D'], input⟩

/-- Dot-prefixed label groups: `.lab1.lab2...` (helper for the grammar). -/
def tailDots : List (List Char) → List Char
  | [] => []
  | lab :: labs => '.' :: (lab ++ tailDots labs)

/-- Labels joined by single dots (the spec's "labels of atext separated by
single dots"). -/
def joinDots : List (List Char) → List Char
  | [] => []
  | lab :: labs => lab ++ tailDots labs

/-- Spec grammar dot-atom-text, following the spec's words: one or more
nonempty labels of internationalized atext, separated by single dots. -/
def SpecDotAtomText (s : List Char) : Prop :=
  ∃ labs : List (List Char), labs ≠ [] ∧
    (∀ lab ∈ labs, lab ≠ [] ∧ ∀ c ∈ lab, isAtext .internationalized c = true) ∧
    s = joinDots labs

/-- Spec grammar no-fold-literal: `[` dtext* `]`. -/
def SpecNoFoldLiteral (s : List Char) : Prop :=
  ∃ mid, s = '[' :: (mid ++ [']']) ∧
    ∀ c ∈ mid, isDtext .internationalized c = true

/-- Spec grammar of a message id: `dot-atom-text "@" (dot-atom-text |
no-fold-literal)`. -/
def SpecMessageIdGrammar (s : List Char) : Prop :=
  ∃ l r, s = l ++ '@' :: r ∧ SpecDotAtomText l ∧
    (SpecDotAtomText r ∨ SpecNoFoldLiteral r)

theorem atext_dot_false : isAtext .internationalized '.' = false := by decide

theorem atext_lbracket_false : isAtext .internationalized '[' = false := by decide

theorem dtext_rbracket_false : isDtext .internationalized ']' = false := by decide

theorem dotTail_nil : dotTail [] = some [] := rfl

theorem dotTail_cons_atext {c : Char} {rest : List Char}
    (hc : isAtext .internationalized c = true) :
    dotTail (c :: rest) = dotTail rest := by
  conv_lhs => rw [dotTail.eq_def]
  simp [hc]

theorem dotTail_cons_other {c : Char} {rest : List Char}
    (hc : isAtext .internationalized c = false) (hd : c ≠ '.') :
    dotTail (c :: rest) = some (c :: rest) := by
  conv_lhs => rw [dotTail.eq_def]
  simp [hc, hd]

theorem dotTail_dot_nil : dotTail ['.'] = none := rfl

theorem dotTail_dot_cons (d : Char) (rest2 : List Char) :
    dotTail ('.' :: d :: rest2) =
      (if isAtext .internationalized d = true then dotTail rest2
       else some ('.' :: d :: rest2)) := rfl

/-- Scanning past an all-atext prefix. -/
theorem dotTail_skip :
    ∀ (tw z : List Char), (∀ c ∈ tw, isAtext .internationalized c = true) →
      dotTail (tw ++ z) = dotTail z := by
  intro tw
  induction tw with
  | nil => intro z _; rfl
  | cons c tw2 ih =>
    intro z htw
    rw [show (c :: tw2) ++ z = c :: (tw2 ++ z) from rfl,
      dotTail_cons_atext (htw c (List.mem_cons_self _ _))]
    exact ih z fun x hx => htw x (List.mem_cons_of_mem _ hx)

/-- Soundness of the dot-atom scan: a successful scan consumed a (possibly
empty) atext run followed by dot-separated nonempty atext labels. -/
theorem dotTail_sound :
    ∀ (l r : List Char), dotTail l = some r →
      ∃ (tw : List Char) (labs : List (List Char)),
        l = tw ++ tailDots labs ++ r ∧
        (∀ c ∈ tw, isAtext .internationalized c = true) ∧
        (∀ lab ∈ labs, lab ≠ [] ∧ ∀ c ∈ lab, isAtext .internationalized c = true) := by
  intro l
  induction l using dotTail.induct with
  | case1 =>
    intro r h
    rw [dotTail_nil] at h
    cases h
    exact ⟨[], [], by simp [tailDots], by simp, by simp⟩
  | case2 c rest hc ih =>
    intro r h
    rw [dotTail_cons_atext hc] at h
    obtain ⟨tw, labs, heq, htw, hlabs⟩ := ih r h
    refine ⟨c :: tw, labs, ?_, ?_, hlabs⟩
    · rw [List.cons_append, List.cons_append, ← heq]
    · intro x hx
      rcases List.mem_cons.mp hx with rfl | hx2
      · exact hc
      · exact htw x hx2
  | case3 hdot =>
    intro r h
    rw [dotTail_dot_nil] at h
    cases h
  | case4 c rest hc hdot ih =>
    intro r h
    rw [dotTail_dot_cons c rest, if_pos hc] at h
    obtain ⟨tw, labs, heq, htw, hlabs⟩ := ih r h
    refine ⟨[], (c :: tw) :: labs, ?_, by simp, ?_⟩
    · rw [heq]
      simp [tailDots]
    · intro lab hlab
      rcases List.mem_cons.mp hlab with rfl | hlab2
      · refine ⟨by simp, ?_⟩
        intro x hx
        rcases List.mem_cons.mp hx with rfl | hx2
        · exact hc
        · exact htw x hx2
      · exact hlabs lab hlab2
  | case5 c rest hc hdot =>
    intro r h
    have hcf : isAtext .internationalized c = false := by
      simpa using hc
    rw [dotTail_dot_cons c rest, if_neg (by simp [hcf])] at h
    cases h
    exact ⟨[], [], by simp [tailDots], by simp, by simp⟩
  | case6 c rest hc hdot =>
    intro r h
    have hcf : isAtext .internationalized c = false := by
      simpa using hc
    rw [dotTail_cons_other hcf hdot] at h
    cases h
    exact ⟨[], [], by simp [tailDots], by simp, by simp⟩

/-- Completeness of the dot-atom scan: an atext run followed by
dot-separated nonempty atext labels, then a remainder that starts with
neither an atext character nor a dot, scans to exactly that remainder. -/
theorem dotTail_complete :
    ∀ (labs : List (List Char)) (tw r : List Char),
      (∀ c ∈ tw, isAtext .internationalized c = true) →
      (∀ lab ∈ labs, lab ≠ [] ∧ ∀ c ∈ lab, isAtext .internationalized c = true) →
      (∀ c, r.head? = some c → isAtext .internationalized c = false) →
      r.head? ≠ some '.' →
      dotTail (tw ++ (tailDots labs ++ r)) = some r := by
  intro labs
  induction labs with
  | nil =>
    intro tw r htw _ hr hrd
    rw [dotTail_skip tw _ htw,
      show tailDots ([] : List (List Char)) ++ r = r from by simp [tailDots]]
    cases r with
    | nil => rfl
    | cons c rest =>
      have hc := hr c rfl
      have hcd : c ≠ '.' := fun hx => hrd (by rw [hx]; rfl)
      exact dotTail_cons_other hc hcd
  | cons lab labs2 ih =>
    intro tw r htw hlabs hr hrd
    rw [dotTail_skip tw _ htw]
    obtain ⟨hne, hchars⟩ := hlabs lab (List.mem_cons_self _ _)
    obtain ⟨d, lab2, rfl⟩ : ∃ d lab2, lab = d :: lab2 := by
      cases lab with
      | nil => exact absurd rfl hne
      | cons d lab2 => exact ⟨d, lab2, rfl⟩
    rw [show tailDots ((d :: lab2) :: labs2) ++ r =
        '.' :: d :: (lab2 ++ (tailDots labs2 ++ r)) from by simp [tailDots],
      dotTail_dot_cons, if_pos (hchars d (List.mem_cons_self _ _))]
    exact ih lab2 r (fun x hx => hchars x (List.mem_cons_of_mem _ hx))
      (fun l3 h3 => hlabs l3 (List.mem_cons_of_mem _ h3)) hr hrd

theorem dropWhile_append_all {p : Char → Bool} :
    ∀ (a r : List Char), (∀ c ∈ a, p c = true) →
      (a ++ r).dropWhile p = r.dropWhile p := by
  intro a
  induction a with
  | nil => intro r _; simp
  | cons c a2 ih =>
    intro r ha
    rw [List.cons_append, List.dropWhile_cons,
      if_pos (ha c (List.mem_cons_self _ _))]
    exact ih r fun x hx => ha x (List.mem_cons_of_mem _ hx)

/-- Soundness of `dot_atom_text`: success consumes a spec dot-atom-text
prefix. -/
theorem dotAtomTextP_sound (l r : List Char) (h : dotAtomTextP l = some r) :
    ∃ a, l = a ++ r ∧ SpecDotAtomText a := by
  cases l with
  | nil => simp [dotAtomTextP] at h
  | cons c rest =>
    by_cases hc : isAtext .internationalized c = true
    · have h2 : dotTail rest = some r := by
        have hstep : dotAtomTextP (c :: rest) = dotTail rest := by
          conv_lhs => rw [dotAtomTextP.eq_def]
          simp [hc]
        rw [hstep] at h
        exact h
      obtain ⟨tw, labs, heq, htw, hlabs⟩ := dotTail_sound rest r h2
      refine ⟨c :: (tw ++ tailDots labs), ?_, ?_⟩
      · rw [heq]
        simp
      · refine ⟨(c :: tw) :: labs, by simp, ?_, by simp [joinDots]⟩
        intro lab hlab
        rcases List.mem_cons.mp hlab with rfl | hlab2
        · refine ⟨by simp, ?_⟩
          intro x hx
          rcases List.mem_cons.mp hx with rfl | hx2
          · exact hc
          · exact htw x hx2
        · exact hlabs lab hlab2
    · have hstep : dotAtomTextP (c :: rest) = none := by
        conv_lhs => rw [dotAtomTextP.eq_def]
        simp [hc]
      rw [hstep] at h
      cases h

/-- Completeness of `dot_atom_text`: a spec dot-atom-text followed by a
remainder starting with neither atext nor a dot parses to that remainder. -/
theorem dotAtomTextP_complete (a r : List Char) (ha : SpecDotAtomText a)
    (hr : ∀ c, r.head? = some c → isAtext .internationalized c = false)
    (hrd : r.head? ≠ some '.') :
    dotAtomTextP (a ++ r) = some r := by
  obtain ⟨labs, hne, hlabs, rfl⟩ := ha
  obtain ⟨lab0, labs2, rfl⟩ : ∃ lab0 labs2, labs = lab0 :: labs2 := by
    cases labs with
    | nil => exact absurd rfl hne
    | cons lab0 labs2 => exact ⟨lab0, labs2, rfl⟩
  obtain ⟨hne0, hchars0⟩ := hlabs lab0 (List.mem_cons_self _ _)
  obtain ⟨c, lab02, rfl⟩ : ∃ c lab02, lab0 = c :: lab02 := by
    cases lab0 with
    | nil => exact absurd rfl hne0
    | cons c lab02 => exact ⟨c, lab02, rfl⟩
  have hc : isAtext .internationalized c = true := hchars0 c (List.mem_cons_self _ _)
  rw [show joinDots ((c :: lab02) :: labs2) ++ r =
      c :: (lab02 ++ (tailDots labs2 ++ r)) from by simp [joinDots]]
  have hstep : dotAtomTextP (c :: (lab02 ++ (tailDots labs2 ++ r))) =
      dotTail (lab02 ++ (tailDots labs2 ++ r)) := by
    conv_lhs => rw [dotAtomTextP.eq_def]
    simp [hc]
  rw [hstep]
  exact dotTail_complete labs2 lab02 r
    (fun x hx => hchars0 x (List.mem_cons_of_mem _ hx))
    (fun lab hl => hlabs lab (List.mem_cons_of_mem _ hl)) hr hrd

/-- Soundness of `no_fold_literal`. -/
theorem noFoldLiteralP_sound (l r : List Char) (h : noFoldLiteralP l = some r) :
    ∃ mid, l = '[' :: mid ++ ']' :: r ∧
      ∀ c ∈ mid, isDtext .internationalized c = true := by
  cases l with
  | nil => simp [noFoldLiteralP] at h
  | cons c rest =>
    by_cases hc : c = '['
    · subst hc
      have hstep : noFoldLiteralP ('[' :: rest) =
          (match rest.dropWhile (isDtext .internationalized) with
           | d :: rest2 => if d = ']' then some rest2 else none
           | [] => none) := by
        conv_lhs => rw [noFoldLiteralP.eq_def]
        simp
      rw [hstep] at h
      cases hdw : rest.dropWhile (isDtext .internationalized) with
      | nil =>
        rw [hdw] at h
        cases h
      | cons d rest2 =>
        rw [hdw] at h
        have h2 : (if d = ']' then some rest2 else none) = some r := h
        by_cases hd : d = ']'
        · subst hd
          rw [if_pos rfl] at h2
          cases h2
          refine ⟨rest.takeWhile (isDtext .internationalized), ?_, ?_⟩
          · rw [show '[' :: rest.takeWhile (isDtext .internationalized) ++ ']' :: r =
              '[' :: (rest.takeWhile (isDtext .internationalized) ++ ']' :: r) from rfl]
            rw [← hdw, List.takeWhile_append_dropWhile]
          · intro x hx
            exact List.mem_takeWhile_imp hx
        · rw [if_neg hd] at h2
          cases h2
    · have hstep : noFoldLiteralP (c :: rest) = none := by
        conv_lhs => rw [noFoldLiteralP.eq_def]
        simp [hc]
      rw [hstep] at h
      cases h

/-- Completeness of `no_fold_literal`. -/
theorem noFoldLiteralP_complete (mid r : List Char)
    (hmid : ∀ c ∈ mid, isDtext .internationalized c = true) :
    noFoldLiteralP ('[' :: (mid ++ ']' :: r)) = some r := by
  have hstep : noFoldLiteralP ('[' :: (mid ++ ']' :: r)) =
      (match (mid ++ ']' :: r).dropWhile (isDtext .internationalized) with
       | d :: rest2 => if d = ']' then some rest2 else none
       | [] => none) := by
    conv_lhs => rw [noFoldLiteralP.eq_def]
    simp
  rw [hstep, dropWhile_append_all mid (']' :: r) hmid,
    List.dropWhile_cons, if_neg (by simp [dtext_rbracket_false])]
  simp

theorem atext_at_internationalized_false : isAtext .internationalized '@' = false :=
  isAtext_at_false .internationalized

/-- The full parser consumes the entire input exactly on the words of the
grammar `dot-atom-text "@" (dot-atom-text | no-fold-literal)`. -/
theorem parseMessageId_done_iff (s : List Char) :
    parseMessageId s = some [] ↔ SpecMessageIdGrammar s := by
  constructor
  · intro h
    unfold parseMessageId at h
    cases hda : dotAtomTextP s with
    | none =>
      rw [hda] at h
      simp at h
    | some rest =>
      rw [hda] at h
      cases rest with
      | nil => simp at h
      | cons r1 rest2 =>
        have h2 : (if r1 = '@' then idRightP rest2 else none) = some [] := h
        by_cases hr1 : r1 = '@'
        · subst hr1
          rw [if_pos rfl] at h2
          obtain ⟨a, heq, hspec⟩ := dotAtomTextP_sound s ('@' :: rest2) hda
          have hright : SpecDotAtomText rest2 ∨ SpecNoFoldLiteral rest2 := by
            unfold idRightP at h2
            cases hnf : noFoldLiteralP rest2 with
            | some r2 =>
              rw [hnf] at h2
              cases h2
              obtain ⟨mid, hmid, hdt⟩ := noFoldLiteralP_sound rest2 [] hnf
              refine Or.inr ⟨mid, ?_, hdt⟩
              rw [hmid]
              simp
            | none =>
              rw [hnf] at h2
              obtain ⟨a2, heq2, hspec2⟩ := dotAtomTextP_sound rest2 [] h2
              rw [List.append_nil] at heq2
              exact Or.inl (heq2 ▸ hspec2)
          exact ⟨a, rest2, heq, hspec, hright⟩
        · rw [if_neg hr1] at h2
          cases h2
  · rintro ⟨l, r, rfl, hl, hr⟩
    have hda : dotAtomTextP (l ++ '@' :: r) = some ('@' :: r) := by
      apply dotAtomTextP_complete l ('@' :: r) hl
      · intro c hc
        rw [List.head?_cons, Option.some.injEq] at hc
        subst hc
        exact atext_at_internationalized_false
      · rw [List.head?_cons]
        intro hx
        cases hx
    have hp : parseMessageId (l ++ '@' :: r) = idRightP r := by
      unfold parseMessageId
      rw [hda]
      show (if '@' = '@' then idRightP r else none) = idRightP r
      rw [if_pos rfl]
    rw [hp]
    rcases hr with hspec | hnfl
    · have hnf : noFoldLiteralP r = none := by
        obtain ⟨labs2, hne2, hlabs2, rfl⟩ := hspec
        obtain ⟨lab0, labs3, rfl⟩ : ∃ lab0 labs3, labs2 = lab0 :: labs3 := by
          cases labs2 with
          | nil => exact absurd rfl hne2
          | cons lab0 labs3 => exact ⟨lab0, labs3, rfl⟩
        obtain ⟨hne0, hchars0⟩ := hlabs2 lab0 (List.mem_cons_self _ _)
        obtain ⟨c, lab02, rfl⟩ : ∃ c lab02, lab0 = c :: lab02 := by
          cases lab0 with
          | nil => exact absurd rfl hne0
          | cons c lab02 => exact ⟨c, lab02, rfl⟩
        have hc : isAtext .internationalized c = true :=
          hchars0 c (List.mem_cons_self _ _)
        have hcnl : c ≠ '[' := by
          intro hx
          rw [hx, atext_lbracket_false] at hc
          cases hc
        rw [show joinDots ((c :: lab02) :: labs3) =
            c :: (lab02 ++ tailDots labs3) from by simp [joinDots]]
        conv_lhs => rw [noFoldLiteralP.eq_def]
        simp [hcnl]
      unfold idRightP
      rw [hnf]
      have := dotAtomTextP_complete r [] hspec (by simp) (by simp)
      rw [List.append_nil] at this
      exact this
    · obtain ⟨mid, rfl, hmid⟩ := hnfl
      unfold idRightP
      rw [show '[' :: (mid ++ [']']) = '[' :: (mid ++ ']' :: []) from by simp,
        noFoldLiteralP_complete mid [] hmid]

/-- C6: MessageID construction succeeds exactly on inputs fully consumed by
the grammar `dot-atom-text "@" (dot-atom-text | no-fold-literal)` — storing
the input tagged ASCII/UTF-8 — and otherwise fails with a creation error
carrying the component name `"MessageID"` and the offending text. -/
theorem messageid_tryFrom_characterization (s : List Char) :
    (MessageID.tryFrom s = .ok ⟨simpleItemOfInput s⟩ ↔ SpecMessageIdGrammar s) ∧
      (¬ SpecMessageIdGrammar s →
        MessageID.tryFrom s =
          .error ⟨['M', 'e', 's', 's', 'a', 'g', 'e', 'I', 'D'], s⟩) := by
  by_cases hp : parseMessageId s = some []
  · have hok : MessageID.tryFrom s = .ok ⟨simpleItemOfInput s⟩ := by
      unfold MessageID.tryFrom
      rw [hp]
    have hg : SpecMessageIdGrammar s := (parseMessageId_done_iff s).mp hp
    exact ⟨⟨fun _ => hg, fun _ => hok⟩, fun hn => absurd hg hn⟩
  · have herr : MessageID.tryFrom s =
        .error ⟨['M', 'e', 's', 's', 'a', 'g', 'e', 'I', 'D'], s⟩ := by
      unfold MessageID.tryFrom
      cases hq : parseMessageId s with
      | none => rfl
      | some rest =>
        cases rest with
        | nil => exact absurd hq hp
        | cons r1 rest2 => rfl
    refine ⟨⟨fun hok => ?_, fun hg => ?_⟩, fun _ => herr⟩
    · rw [herr] at hok
      cases hok
    · exact absurd ((parseMessageId_done_iff s).mpr hg) hp

/-- C6 (witness): `"a@b"` constructs (ASCII-tagged), matching the grammar. -/
theorem messageid_tryFrom_characterization_witness :
    MessageID.tryFrom ['a', '@', 'b'] = .ok ⟨.ascii ['a', '@', 'b']⟩ :=
  ((messageid_tryFrom_characterization ['a', '@', 'b']).1.mpr
    ⟨['a'], ['b'], rfl,
      ⟨[['a']], by simp, by simp [joinDots, tailDots]; decide, by simp [joinDots, tailDots]⟩,
      Or.inl ⟨[['b']], by simp, by simp [joinDots, tailDots]; decide,
        by simp [joinDots, tailDots]⟩⟩).trans (by decide)
